import Mathlib

/-!
# Verification of the `UnorderedMap` hash table

Shallow embedding of the separate-chaining hash table from
`src/unorderedMapHeader.hpp` / `src/unorderedMapImplementation.tpp`.

The C++ class is a template `UnorderedMap<Key, T, Hash, KeyEqual>`; here it is
instantiated at `Key = String`, `T = Nat` (so the default-constructed mapped
value `T{}` is `0`) and `KeyEqual = std::equal_to` (decidable equality on
`String`).  The hash functor `Hash` stays an arbitrary function
`String → Nat`, stored in the table exactly like the `hasher_` member.

Modelling conventions:
* `std::vector<std::list<value_type>> buckets_` becomes
  `List (List (String × Nat))`; `std::list::push_back` is `· ++ [kv]`.
* `size_type` (`size_t`) values become `Nat`.  No operation in scope
  overflows 64 bits for the states considered (all sizes are bounded by the
  number of performed insertions), so the `% 2^64` reduction is omitted.
* `float` load factors become `ℚ`; `static_cast<float>(n)/b` is exact for
  every concrete value appearing here.  The two degenerate float cases with
  `buckets_.size() == 0` are modelled explicitly in `load_factor_exceeds`:
  `0.0f/0` is NaN (every `>` comparison false) and `n/0` with `n > 0` is
  `+inf` (greater than every finite threshold).
* Undefined behaviour — the remainder `% 0` reached whenever a key is hashed
  into an empty bucket array — is made explicit: `bucket` returns `Option Nat`
  with `none` standing for the undefined computation, and every operation
  that reaches it propagates the `none`.
* Iterators (`Cursor`s) are (bucket index, intra-bucket position) pairs; the
  end iterator is bucket index = bucket count, as in the source.
* Throwing (`at`) is modelled with `Except`.
-/

namespace UM

/-- The entry type `value_type = std::pair<const Key, T>` at `Key = String`, `T = Nat`. -/
abbrev Entry := String × Nat

/-- The table state: the data members of `UnorderedMap`
(`buckets_`, `num_elements_`, `max_load_factor_`, `hasher_`); the equality
predicate member `equal_` is the default `std::equal_to` and needs no field. -/
structure UnorderedMap where
  buckets_ : List (List Entry)
  num_elements_ : Nat
  max_load_factor_ : ℚ
  hasher_ : String → Nat

/-- An iterator: bucket index plus position inside the bucket's list
(the model of the `std::list` iterator member). -/
structure Cursor where
  bucket_index_ : Nat
  pos_ : Nat
deriving DecidableEq

/-- Sum of the character codes: a concrete hash functor for the scenarios. -/
def charSumHash (s : String) : Nat := (s.toList.map Char.toNat).sum

/-- String length: a concrete hash functor for the scenarios. -/
def lenHash (s : String) : Nat := s.length

namespace UnorderedMap

/-- Accessor `size()`: returns `num_elements_`. -/
def size (m : UnorderedMap) : Nat := m.num_elements_

/-- Accessor `empty()`: `num_elements_ == 0`. -/
def empty (m : UnorderedMap) : Bool := m.num_elements_ == 0

/-- Accessor `bucket_count()`: `buckets_.size()`. -/
def bucket_count (m : UnorderedMap) : Nat := m.buckets_.length

/-- Accessor `bucket_size(i)`: `buckets_[i].size()` (out-of-range reads as the empty
bucket; the source only calls it in range). -/
def bucket_size (m : UnorderedMap) (i : Nat) : Nat := (m.buckets_.getD i []).length

/-- Accessor `load_factor()`: `float(num_elements_) / buckets_.size()`, as an exact
rational (`mkRat` so that concrete states evaluate; `load_factor_eq_div`
below restates it as the division).  For `bucket_count = 0` the C++ value is
NaN/inf; the growth check models that case separately in
`load_factor_exceeds`. -/
def load_factor (m : UnorderedMap) : ℚ :=
  mkRat m.num_elements_ m.bucket_count

/-- Placement `bucket(key)`: `hasher_(key) % buckets_.size()`.  A zero bucket count
makes the remainder undefined in C++; that is the `none` case. -/
def bucket (m : UnorderedMap) (key : String) : Option Nat :=
  if m.bucket_count = 0 then none else some (m.hasher_ key % m.bucket_count)

/-- The linear scan `for (it = lst.begin(); it != lst.end(); ++it)
if (equal_(it->first, key)) ...`: position of the first entry whose key
equals `key`, if any. -/
def scanPos (key : String) : List Entry → Option Nat
  | [] => none
  | e :: rest => if e.1 = key then some 0 else (scanPos key rest).map (· + 1)

/-- The condition of `rehash_if_needed`: `load_factor() > max_load_factor_`.
With a zero bucket count the float quotient is NaN (if `num_elements_ == 0`;
comparison false) or `+inf` (comparison true). -/
def load_factor_exceeds (m : UnorderedMap) : Bool :=
  if m.bucket_count = 0 then decide (0 < m.num_elements_)
  else decide (m.max_load_factor_ < m.load_factor)

/-- Statement `new_buckets[idx].push_back(kv)` for `idx = i`. -/
def pushAt (bs : List (List Entry)) (i : Nat) (e : Entry) : List (List Entry) :=
  bs.set i (bs.getD i [] ++ [e])

/-- The body of `rehash`: visit the old buckets in index order, each bucket
front to back, and push every entry into `new_buckets[hash(key) % new_count]`. -/
def rehashBuckets (h : String → Nat) (new_count : Nat) (old : List (List Entry)) :
    List (List Entry) :=
  old.flatten.foldl (fun nb kv => pushAt nb (h kv.1 % new_count) kv) (List.replicate new_count [])

/-- Operation `rehash(new_count)`.  When `new_count = 0` and some entry exists the loop
computes `hash % 0` — undefined (`none`).  (With no entries the loop body
never runs and the bucket array is simply replaced by an empty one.) -/
def rehash (m : UnorderedMap) (new_count : Nat) : Option UnorderedMap :=
  if new_count = 0 ∧ m.buckets_.flatten ≠ [] then none
  else some { m with buckets_ := rehashBuckets m.hasher_ new_count m.buckets_ }

/-- Growth check `rehash_if_needed()`: `if (load_factor() > max_load_factor_)
rehash(buckets_.size() * 2);` -/
def rehash_if_needed (m : UnorderedMap) : Option UnorderedMap :=
  if m.load_factor_exceeds then m.rehash (m.bucket_count * 2) else some m

/-- Iterator `end()`: bucket index = bucket count (the stored list iterator is
irrelevant there; position 0 is used). -/
def endIter (m : UnorderedMap) : Cursor := ⟨m.bucket_count, 0⟩

/-- Comparison `iterator::operator==`: same bucket index, and when not at the end also
the same intra-bucket position. -/
def iterEq (m : UnorderedMap) (a b : Cursor) : Bool :=
  a.bucket_index_ == b.bucket_index_ &&
    (a.bucket_index_ == m.bucket_count || a.pos_ == b.pos_)

/-- Operation `insert(kv)`: growth check first, then scan the target bucket; on a hit
return the existing position with `false`, otherwise append at the tail,
bump the count, and return the new position with `true`. -/
def insert (m : UnorderedMap) (kv : Entry) : Option (UnorderedMap × Cursor × Bool) := do
  let m1 ← m.rehash_if_needed
  let idx ← m1.bucket kv.1
  let lst := m1.buckets_.getD idx []
  match scanPos kv.1 lst with
  | some j => some (m1, ⟨idx, j⟩, false)
  | none =>
      some ({ m1 with
                buckets_ := m1.buckets_.set idx (lst ++ [kv]),
                num_elements_ := m1.num_elements_ + 1 },
            ⟨idx, lst.length⟩, true)

/-- Operation `emplace(args...)`: builds the pair and delegates to `insert`. -/
def emplace (m : UnorderedMap) (kv : Entry) : Option (UnorderedMap × Cursor × Bool) :=
  m.insert kv

/-- Lookup `find(key)`: scan the target bucket; end iterator when absent. -/
def find (m : UnorderedMap) (key : String) : Option Cursor := do
  let idx ← m.bucket key
  match scanPos key (m.buckets_.getD idx []) with
  | some j => some ⟨idx, j⟩
  | none => some m.endIter

/-- Dereference `*it` at a cursor: the entry stored at (bucket index, position). -/
def derefKV (m : UnorderedMap) (c : Cursor) : Entry :=
  (m.buckets_.getD c.bucket_index_ []).getD c.pos_ ("", 0)

/-- Operation `erase(key)`: scan the target bucket; remove the matching node and
decrement the count, returning 1, or return 0 untouched. -/
def erase (m : UnorderedMap) (key : String) : Option (UnorderedMap × Nat) := do
  let idx ← m.bucket key
  let lst := m.buckets_.getD idx []
  match scanPos key lst with
  | some j =>
      some ({ m with
                buckets_ := m.buckets_.set idx (lst.eraseIdx j),
                num_elements_ := m.num_elements_ - 1 }, 1)
  | none => some (m, 0)

/-- Accessor `at(key)`: `find`, then throw `std::out_of_range("Key not found")` on the
end iterator, else return the mapped value.  (It only reads the table.) -/
def atVal (m : UnorderedMap) (key : String) : Option (Except String Nat) := do
  let c ← m.find key
  if m.iterEq c m.endIter then some (Except.error "Key not found")
  else some (Except.ok (m.derefKV c).2)

/-- Lookup `contains(key)`: `find(key) != end()`. -/
def contains (m : UnorderedMap) (key : String) : Option Bool :=
  (m.find key).map (fun c => !(m.iterEq c m.endIter))

/-- Lookup `count(key)`: `contains(key) ? 1 : 0`. -/
def count (m : UnorderedMap) (key : String) : Option Nat :=
  (m.contains key).map (fun b => if b then 1 else 0)

/-- Access `operator[](key)`: insert of the key with the default value, then the mapped value at the
returned iterator (`T{} = 0` at `T = Nat`). -/
def getOrInsert (m : UnorderedMap) (key : String) : Option (UnorderedMap × Nat) :=
  (m.insert (key, 0)).map (fun r => (r.1, (r.1.derefKV r.2.1).2))

/-- Operation `clear()`: empty every bucket, reset the count; the bucket array length
is unchanged. -/
def clear (m : UnorderedMap) : UnorderedMap :=
  { m with buckets_ := m.buckets_.map (fun _ => []), num_elements_ := 0 }

/-- Operation `swap(other)`: exchanges all five members, i.e. the two table values. -/
def swapTables (a b : UnorderedMap) : UnorderedMap × UnorderedMap := (b, a)

/-- The sized constructor: `bucket_count` empty buckets, zero elements,
`max_load_factor_ = 1.0f`. -/
def mkEmpty (bucket_count : Nat) (h : String → Nat) : UnorderedMap :=
  ⟨List.replicate bucket_count [], 0, 1, h⟩

/-- Loop `for (auto& kv : l) insert(kv);` threaded through the undefinedness
monad. -/
def insertAll (m : UnorderedMap) (l : List Entry) : Option UnorderedMap :=
  l.foldlM (fun acc kv => (acc.insert kv).map (·.1)) m

/-- The initializer-list constructor: delegate to the sized constructor, then
insert each pair in sequence order. -/
def ofList (init : List Entry) (bucket_count : Nat) (h : String → Nat) :
    Option UnorderedMap :=
  insertAll (mkEmpty bucket_count h) init

/-- The copy constructor: fresh bucket array of the source's size, zero
elements, copied policy members, then re-insert every entry bucket by
bucket, front to back. -/
def copyCtor (m : UnorderedMap) : Option UnorderedMap :=
  insertAll ⟨List.replicate m.bucket_count [], 0, m.max_load_factor_, m.hasher_⟩
    m.buckets_.flatten

/-- The move constructor: the destination steals all members; the moved-from
vector is left empty and `other.num_elements_ = 0`; the moved-from table
keeps its `max_load_factor_` (the float is copied, not reset). -/
def moveCtor (other : UnorderedMap) : UnorderedMap × UnorderedMap :=
  (⟨other.buckets_, other.num_elements_, other.max_load_factor_, other.hasher_⟩,
   ⟨[], 0, other.max_load_factor_, other.hasher_⟩)

/-- Move assignment (`operator=(UnorderedMap&&)`, non-self case): same field
transfer as the move constructor. -/
def moveAssign (_this other : UnorderedMap) : UnorderedMap × UnorderedMap :=
  (⟨other.buckets_, other.num_elements_, other.max_load_factor_, other.hasher_⟩,
   ⟨[], 0, other.max_load_factor_, other.hasher_⟩)

/-- The `max_load_factor(float ml)` setter: store the threshold, then run the
growth check. -/
def set_max_load_factor (m : UnorderedMap) (ml : ℚ) : Option UnorderedMap :=
  rehash_if_needed { m with max_load_factor_ := ml }

/-- Index of the first non-empty bucket (the scan in `begin()` and in the
`advance()` while-loop); the list length when every bucket is empty. -/
def firstNonEmptyIdx : List (List Entry) → Nat
  | [] => 0
  | b :: rest => if b.isEmpty then firstNonEmptyIdx rest + 1 else 0

/-- Iterator `begin()`: first non-empty bucket at position 0, or `end()`. -/
def beginIter (m : UnorderedMap) : Cursor := ⟨firstNonEmptyIdx m.buckets_, 0⟩

/-- Stepping `iterator::advance()`: no-op at the end; otherwise step inside the
current bucket, else skip empty buckets forward (possibly reaching the end). -/
def advanceIter (m : UnorderedMap) (c : Cursor) : Cursor :=
  if c.bucket_index_ < m.bucket_count then
    let lst := m.buckets_.getD c.bucket_index_ []
    if c.pos_ + 1 < lst.length then ⟨c.bucket_index_, c.pos_ + 1⟩
    else ⟨c.bucket_index_ + 1 + firstNonEmptyIdx (m.buckets_.drop (c.bucket_index_ + 1)), 0⟩
  else c

/-- The standard `while (it != end) { visit *it; ++it; }` loop, with explicit
fuel (each step visits exactly one entry, so `sumSizes` fuel suffices). -/
def walkFrom (m : UnorderedMap) : Nat → Cursor → List Entry
  | 0, _ => []
  | fuel + 1, c =>
      if c.bucket_index_ < m.bucket_count then
        m.derefKV c :: walkFrom m fuel (m.advanceIter c)
      else []

/-- Sum `sum(bucket_size(i) for all i)`. -/
def sumSizes (m : UnorderedMap) : Nat := (m.buckets_.map List.length).sum

/-- The full `begin()`-to-`end()` traversal. -/
def traversal (m : UnorderedMap) : List Entry := walkFrom m m.sumSizes m.beginIter

/-- The reachable-state invariant: every entry lives in the bucket its hash
selects, stored keys are pairwise distinct, and the element count matches
the buckets. -/
def WF (m : UnorderedMap) : Prop :=
  (∀ i, i < m.bucket_count → ∀ e ∈ m.buckets_.getD i [], m.hasher_ e.1 % m.bucket_count = i)
  ∧ (m.buckets_.flatten.map Prod.fst).Nodup
  ∧ m.num_elements_ = m.sumSizes

instance (m : UnorderedMap) : Decidable (m.WF) := by
  unfold WF bucket_count sumSizes
  infer_instance

/-- A key is present (per the equality predicate) somewhere in the table. -/
def keyPresent (m : UnorderedMap) (k : String) : Prop :=
  k ∈ m.buckets_.flatten.map Prod.fst

instance (m : UnorderedMap) (k : String) : Decidable (m.keyPresent k) := by
  unfold keyPresent
  infer_instance

/-- The pair `(k, v)` is stored in the table. -/
def mapsTo (m : UnorderedMap) (k : String) (v : Nat) : Prop :=
  (k, v) ∈ m.buckets_.flatten

/-- The entries not yet visited from a cursor position. -/
def remFrom (bs : List (List Entry)) (c : Cursor) : List Entry :=
  (bs.getD c.bucket_index_ []).drop c.pos_ ++ (bs.drop (c.bucket_index_ + 1)).flatten

/-- Consistency predicate: `size()` agrees with the buckets, the bookkeeping member equals the sum
of the bucket sizes. -/
def size_consistent (m : UnorderedMap) : Prop := m.num_elements_ = m.sumSizes

instance (m : UnorderedMap) : Decidable (m.size_consistent) := by
  unfold size_consistent
  infer_instance

instance : DecidableEq (Except String Nat) := fun a b =>
  match a, b with
  | Except.error x, Except.error y =>
      if h : x = y then isTrue (by rw [h]) else isFalse (by simp [h])
  | Except.error _, Except.ok _ => isFalse (by simp)
  | Except.ok _, Except.error _ => isFalse (by simp)
  | Except.ok x, Except.ok y =>
      if h : x = y then isTrue (by rw [h]) else isFalse (by simp [h])

/-- The 17 distinct scenario keys `"a"`..`"q"` with values 0..16. -/
def abcPairs : List Entry :=
  [("a", 0), ("b", 1), ("c", 2), ("d", 3), ("e", 4), ("f", 5), ("g", 6), ("h", 7),
   ("i", 8), ("j", 9), ("k", 10), ("l", 11), ("m", 12), ("n", 13), ("o", 14),
   ("p", 15), ("q", 16)]

/-- A 16-bucket table holding `("x", 1)` (the first write of the first-write-wins
scenario). -/
def xTab : UnorderedMap :=
  (((mkEmpty 16 charSumHash).insert ("x", 1)).map (fun r => r.1)).getD (mkEmpty 16 charSumHash)

/-- A one-bucket table with two entries: `load_factor() = 2 > 1 = max_load_factor()`,
so the next insertion path triggers the growth check. -/
def overTab : UnorderedMap := ⟨[[("a", 1), ("b", 2)]], 2, 1, charSumHash⟩

/-- A reachable table with `max_load_factor = 1/8`, 8 buckets and 4 entries:
re-inserting its contents one by one (as copy construction does) passes
intermediate load factors above `1/8` and grows the copy to 32 buckets. -/
def c8Src : UnorderedMap :=
  (((mkEmpty 1 lenHash).set_max_load_factor (mkRat 1 8)).bind
    (fun m0 => insertAll m0 [("a", 1), ("bb", 2), ("ccc", 3), ("dddd", 4)])).getD
    (mkEmpty 1 lenHash)

/-- A one-bucket table holding one entry, for exercising `rehash(0)`. -/
def c9Tab : UnorderedMap :=
  (((mkEmpty 1 lenHash).insert ("a", 1)).map (fun r => r.1)).getD (mkEmpty 1 lenHash)

/-! ### List-level helper lemmas -/

theorem getD_replicate_nil (n i : Nat) :
    (List.replicate n ([] : List Entry)).getD i [] = [] := by
  induction n generalizing i with
  | zero => simp [List.getD]
  | succ n ih =>
    cases i with
    | zero => simp [List.replicate]
    | succ i =>
      rw [List.replicate]
      show (List.replicate n ([] : List Entry)).getD i [] = []
      exact ih i

theorem flatten_replicate_nil (n : Nat) :
    (List.replicate n ([] : List Entry)).flatten = [] := by
  induction n with
  | zero => rfl
  | succ n ih =>
    rw [List.replicate, List.flatten_cons, ih]
    rfl

theorem getD_mem {α : Type} {l : List α} {j : Nat} (d : α) (h : j < l.length) :
    l.getD j d ∈ l := by
  induction l generalizing j with
  | nil => simp at h
  | cons a t ih =>
    cases j with
    | zero => simp
    | succ j =>
      have := ih (j := j) (by simpa using h)
      simp [List.getD] at this ⊢
      right
      simpa [List.getD] using this

theorem getD_set_self {α : Type} {bs : List α} {i : Nat} (L d : α)
    (h : i < bs.length) : (bs.set i L).getD i d = L := by
  induction bs generalizing i with
  | nil => simp at h
  | cons b t ih =>
    cases i with
    | zero => rfl
    | succ i => simpa [List.set, List.getD] using ih (by simpa using h)

theorem getD_set_ne {α : Type} {bs : List α} {i j : Nat} (L d : α)
    (h : i ≠ j) : (bs.set i L).getD j d = bs.getD j d := by
  induction bs generalizing i j with
  | nil => rfl
  | cons b t ih =>
    cases i with
    | zero =>
      cases j with
      | zero => exact absurd rfl h
      | succ j => rfl
    | succ i =>
      cases j with
      | zero => rfl
      | succ j => simpa [List.set, List.getD] using ih (fun hc => h (by simpa using hc))

theorem sum_map_length_set (bs : List (List Entry)) (i : Nat) (L : List Entry)
    (h : i < bs.length) :
    ((bs.set i L).map List.length).sum + (bs.getD i []).length
      = (bs.map List.length).sum + L.length := by
  induction bs generalizing i with
  | nil => simp at h
  | cons b t ih =>
    cases i with
    | zero => simp [List.getD]; omega
    | succ i =>
      have := ih i (by simpa using h)
      simp [List.set, List.getD] at this ⊢
      omega

theorem flatten_set_append_perm (bs : List (List Entry)) (i : Nat) (e : Entry)
    (h : i < bs.length) :
    ((bs.set i (bs.getD i [] ++ [e])).flatten).Perm (bs.flatten ++ [e]) := by
  induction bs generalizing i with
  | nil => simp at h
  | cons b t ih =>
    cases i with
    | zero =>
      simp only [List.set, List.getD, List.getElem?_cons_zero, Option.getD_some,
        List.flatten_cons, List.append_assoc]
      exact List.perm_append_comm.append_left b
    | succ i =>
      have hp := ih i (by simpa using h)
      simp only [List.set, List.getD_cons_succ, List.flatten_cons, List.append_assoc]
      exact hp.append_left b

theorem flatten_decompose (bs : List (List Entry)) (i : Nat) (h : i < bs.length) :
    bs.flatten = (bs.take i).flatten ++ (bs.getD i [] ++ (bs.drop (i + 1)).flatten) := by
  induction bs generalizing i with
  | nil => simp at h
  | cons b t ih =>
    cases i with
    | zero => simp [List.getD]
    | succ i =>
      have := ih i (by simpa using h)
      simp [List.getD] at this ⊢
      rw [this]

/-! ### `scanPos` (the bucket scan) -/

theorem scanPos_eq_none_iff (key : String) (l : List Entry) :
    scanPos key l = none ↔ ∀ e ∈ l, e.1 ≠ key := by
  induction l with
  | nil => simp [scanPos]
  | cons e t ih =>
    by_cases hk : e.1 = key
    · simp [scanPos, hk]
    · simp [scanPos, hk, ih]

theorem scanPos_some (key : String) (l : List Entry) (j : Nat)
    (h : scanPos key l = some j) :
    j < l.length ∧ (l.getD j ("", 0)).1 = key := by
  induction l generalizing j with
  | nil => simp [scanPos] at h
  | cons e t ih =>
    by_cases hk : e.1 = key
    · simp [scanPos, hk] at h
      subst h
      simpa [List.getD] using hk
    · simp [scanPos, hk] at h
      obtain ⟨j', hj', rfl⟩ := h
      have := ih j' hj'
      constructor
      · simpa using this.1
      · simpa [List.getD] using this.2

theorem scanPos_isSome_of_mem (key : String) (l : List Entry)
    (h : ∃ e ∈ l, e.1 = key) : ∃ j, scanPos key l = some j := by
  rcases hs : scanPos key l with _ | j
  · rw [scanPos_eq_none_iff] at hs
    obtain ⟨e, he, hk⟩ := h
    exact absurd hk (hs e he)
  · exact ⟨j, rfl⟩

/-! ### The rehash loop: filter characterization, permutation, length -/

theorem foldl_pushAt_length (l : List Entry) (f : Entry → Nat) (nb : List (List Entry)) :
    (l.foldl (fun nb kv => pushAt nb (f kv) kv) nb).length = nb.length := by
  induction l generalizing nb with
  | nil => rfl
  | cons kv t ih =>
    simpa [pushAt] using ih (pushAt nb (f kv) kv)

theorem foldl_pushAt_getD (l : List Entry) (f : Entry → Nat) (nb : List (List Entry))
    (i : Nat) (hi : i < nb.length) :
    (l.foldl (fun nb kv => pushAt nb (f kv) kv) nb).getD i []
      = nb.getD i [] ++ l.filter (fun kv => f kv == i) := by
  induction l generalizing nb with
  | nil => simp
  | cons kv t ih =>
    simp only [List.foldl_cons, List.filter_cons]
    by_cases hkv : f kv = i
    · rw [if_pos (by simpa using hkv)]
      have hrec := ih (pushAt nb (f kv) kv) (by simpa [pushAt] using hi)
      rw [hrec]
      subst hkv
      rw [pushAt, getD_set_self _ _ hi, List.append_assoc, List.singleton_append]
    · rw [if_neg (by simpa using hkv)]
      have hrec := ih (pushAt nb (f kv) kv) (by simpa [pushAt] using hi)
      rw [hrec, pushAt, getD_set_ne _ _ hkv]

theorem foldl_pushAt_flatten_perm (l : List Entry) (f : Entry → Nat)
    (nb : List (List Entry)) (hf : ∀ kv ∈ l, f kv < nb.length) :
    ((l.foldl (fun nb kv => pushAt nb (f kv) kv) nb).flatten).Perm (nb.flatten ++ l) := by
  induction l generalizing nb with
  | nil => simp
  | cons kv t ih =>
    simp only [List.foldl_cons]
    have h1 : ((pushAt nb (f kv) kv).flatten).Perm (nb.flatten ++ [kv]) :=
      flatten_set_append_perm nb (f kv) kv (hf kv (by simp))
    have h2 := ih (pushAt nb (f kv) kv)
      (fun e he => by simpa [pushAt] using hf e (by simp [he]))
    refine h2.trans ?_
    refine (h1.append_right t).trans ?_
    simp

theorem rehashBuckets_length (h : String → Nat) (n : Nat) (old : List (List Entry)) :
    (rehashBuckets h n old).length = n := by
  rw [rehashBuckets, foldl_pushAt_length, List.length_replicate]

theorem rehashBuckets_getD (h : String → Nat) (n : Nat) (old : List (List Entry))
    (i : Nat) (hi : i < n) :
    (rehashBuckets h n old).getD i []
      = old.flatten.filter (fun kv => h kv.1 % n == i) := by
  rw [rehashBuckets, foldl_pushAt_getD _ _ _ _ (by simpa using hi),
    getD_replicate_nil, List.nil_append]

theorem rehashBuckets_flatten_perm (h : String → Nat) (n : Nat)
    (old : List (List Entry)) (hn : 0 < n) :
    ((rehashBuckets h n old).flatten).Perm old.flatten := by
  have := foldl_pushAt_flatten_perm old.flatten (fun kv => h kv.1 % n)
    (List.replicate n []) (fun kv _ => by simpa using Nat.mod_lt _ hn)
  rw [rehashBuckets]
  simpa [flatten_replicate_nil] using this

/-! ### `rehash`, `sumSizes`, and preservation of the invariant -/

theorem sumSizes_eq_flatten_length (m : UnorderedMap) :
    m.sumSizes = m.buckets_.flatten.length := by
  rw [sumSizes, List.length_flatten]

theorem rehash_pos (m : UnorderedMap) (n : Nat) (hn : 0 < n) :
    m.rehash n = some { m with buckets_ := rehashBuckets m.hasher_ n m.buckets_ } := by
  rw [rehash, if_neg]
  rintro ⟨h0, -⟩
  omega

theorem WF_mk_rehash (bs : List (List Entry)) (ne : Nat) (ml : ℚ)
    (hf : String → Nat) (n : Nat) (hn : 0 < n)
    (hwf : UnorderedMap.WF ⟨bs, ne, ml, hf⟩) :
    UnorderedMap.WF ⟨rehashBuckets hf n bs, ne, ml, hf⟩ := by
  obtain ⟨-, hnd, hsz⟩ := hwf
  have hperm := rehashBuckets_flatten_perm hf n bs hn
  have hlen := rehashBuckets_length hf n bs
  refine ⟨?_, ?_, ?_⟩
  · intro i hi e he
    simp only [bucket_count, hlen] at hi ⊢
    rw [show (UnorderedMap.mk (rehashBuckets hf n bs) ne ml hf).buckets_
          = rehashBuckets hf n bs from rfl, rehashBuckets_getD _ _ _ i hi] at he
    simpa using List.of_mem_filter he
  · exact ((hperm.map Prod.fst).nodup_iff).mpr hnd
  · show ne = UnorderedMap.sumSizes _
    rw [sumSizes_eq_flatten_length]
    show ne = (rehashBuckets hf n bs).flatten.length
    rw [hperm.length_eq]
    simpa [sumSizes_eq_flatten_length] using hsz

theorem rehash_spec (m : UnorderedMap) (n : Nat) (hn : 0 < n) :
    ∃ m', m.rehash n = some m'
      ∧ m'.bucket_count = n
      ∧ m'.num_elements_ = m.num_elements_
      ∧ m'.max_load_factor_ = m.max_load_factor_
      ∧ m'.hasher_ = m.hasher_
      ∧ (m'.buckets_.flatten).Perm m.buckets_.flatten
      ∧ (∀ i, i < n → m'.buckets_.getD i []
          = m.buckets_.flatten.filter (fun kv => m.hasher_ kv.1 % n == i))
      ∧ (m.WF → m'.WF) := by
  refine ⟨_, rehash_pos m n hn, ?_, rfl, rfl, rfl, ?_, ?_, ?_⟩
  · simpa [bucket_count] using rehashBuckets_length m.hasher_ n m.buckets_
  · exact rehashBuckets_flatten_perm m.hasher_ n m.buckets_ hn
  · exact fun i hi => rehashBuckets_getD m.hasher_ n m.buckets_ i hi
  · intro hwf
    obtain ⟨bs, ne, ml, hf⟩ := m
    exact WF_mk_rehash bs ne ml hf n hn hwf

theorem rehash_if_needed_spec (m : UnorderedMap) (hb : 0 < m.bucket_count) :
    ∃ m1, m.rehash_if_needed = some m1
      ∧ m1.num_elements_ = m.num_elements_
      ∧ m1.max_load_factor_ = m.max_load_factor_
      ∧ m1.hasher_ = m.hasher_
      ∧ 0 < m1.bucket_count
      ∧ (m1.buckets_.flatten).Perm m.buckets_.flatten
      ∧ (m.WF → m1.WF)
      ∧ (m1.bucket_count = m.bucket_count ∨ m1.bucket_count = 2 * m.bucket_count) := by
  rw [rehash_if_needed]
  by_cases hex : m.load_factor_exceeds
  · rw [if_pos hex]
    obtain ⟨m1, heq, hbc, hnum, hml, hh, hperm, -, hwf⟩ :=
      rehash_spec m (m.bucket_count * 2) (by omega)
    exact ⟨m1, heq, hnum, hml, hh, by omega, hperm, hwf, Or.inr (by omega)⟩
  · rw [if_neg hex]
    exact ⟨m, rfl, rfl, rfl, rfl, hb, List.Perm.refl _, id, Or.inl rfl⟩

/-! ### Membership, the home bucket, and `find` -/

theorem mem_flatten_iff_getD (bs : List (List Entry)) (e : Entry) :
    e ∈ bs.flatten ↔ ∃ i, i < bs.length ∧ e ∈ bs.getD i [] := by
  induction bs with
  | nil => simp
  | cons b t ih =>
    simp only [List.flatten_cons, List.mem_append, ih]
    constructor
    · rintro (hb | ⟨i, hi, he⟩)
      · exact ⟨0, by simp, by simpa [List.getD] using hb⟩
      · exact ⟨i + 1, by simpa using hi, by simpa [List.getD] using he⟩
    · rintro ⟨i, hi, he⟩
      cases i with
      | zero => exact Or.inl (by simpa [List.getD] using he)
      | succ i => exact Or.inr ⟨i, by simpa using hi, by simpa [List.getD] using he⟩

theorem keyPresent_iff (m : UnorderedMap) (k : String) :
    m.keyPresent k ↔ ∃ v, m.mapsTo k v := by
  rw [keyPresent]
  constructor
  · intro h
    obtain ⟨e, he, hk⟩ := List.mem_map.mp h
    exact ⟨e.2, by rwa [mapsTo, show (k, e.2) = e from by rw [← hk]]⟩
  · rintro ⟨v, hv⟩
    exact List.mem_map.mpr ⟨(k, v), hv, rfl⟩

theorem bucket_count_pos_of_present (m : UnorderedMap) (k : String)
    (hp : m.keyPresent k) : 0 < m.bucket_count := by
  obtain ⟨v, hv⟩ := (keyPresent_iff m k).mp hp
  rw [mapsTo, mem_flatten_iff_getD] at hv
  obtain ⟨i, hi, -⟩ := hv
  exact Nat.lt_of_le_of_lt (Nat.zero_le i) hi

theorem home_bucket_of_present (m : UnorderedMap) (k : String)
    (hwf : m.WF) (hp : m.keyPresent k) :
    ∃ v, (k, v) ∈ m.buckets_.getD (m.hasher_ k % m.bucket_count) [] := by
  obtain ⟨v, hv⟩ := (keyPresent_iff m k).mp hp
  rw [mapsTo, mem_flatten_iff_getD] at hv
  obtain ⟨i, hi, he⟩ := hv
  have h2 : m.hasher_ k % m.bucket_count = i := by
    simpa using hwf.1 i hi (k, v) he
  exact ⟨v, by rw [h2]; exact he⟩

theorem mem_getD_mem_flatten (bs : List (List Entry)) (e : Entry) (i : Nat)
    (hi : i < bs.length) (he : e ∈ bs.getD i []) : e ∈ bs.flatten :=
  (mem_flatten_iff_getD bs e).mpr ⟨i, hi, he⟩

/-- With distinct keys, a key determines its stored value. -/
theorem mapsTo_unique (m : UnorderedMap) (k : String) (v w : Nat)
    (hwf : m.WF) (hv : m.mapsTo k v) (hw : m.mapsTo k w) : v = w := by
  have := List.inj_on_of_nodup_map hwf.2.1 hv hw (by rfl)
  injection this

theorem find_eq_scan (m : UnorderedMap) (k : String) (idx : Nat)
    (hidx : m.bucket k = some idx) :
    m.find k = (match scanPos k (m.buckets_.getD idx []) with
      | some j => some ⟨idx, j⟩
      | none => some m.endIter) := by
  rw [find, hidx]
  rfl

theorem find_present (m : UnorderedMap) (k : String)
    (hwf : m.WF) (hp : m.keyPresent k) :
    ∃ j, m.find k = some ⟨m.hasher_ k % m.bucket_count, j⟩
      ∧ scanPos k (m.buckets_.getD (m.hasher_ k % m.bucket_count) []) = some j
      ∧ (m.derefKV ⟨m.hasher_ k % m.bucket_count, j⟩).1 = k
      ∧ m.mapsTo k (m.derefKV ⟨m.hasher_ k % m.bucket_count, j⟩).2 := by
  have hb := bucket_count_pos_of_present m k hp
  obtain ⟨v, hv⟩ := home_bucket_of_present m k hwf hp
  obtain ⟨j, hj⟩ := scanPos_isSome_of_mem k _ ⟨(k, v), hv, rfl⟩
  obtain ⟨hjlt, hjkey⟩ := scanPos_some k _ j hj
  have hidx : m.bucket k = some (m.hasher_ k % m.bucket_count) := by
    rw [bucket, if_neg (by omega)]
  have hfind : m.find k = some ⟨m.hasher_ k % m.bucket_count, j⟩ := by
    rw [find_eq_scan m k _ hidx, hj]
  have hderef : m.derefKV ⟨m.hasher_ k % m.bucket_count, j⟩
      = (m.buckets_.getD (m.hasher_ k % m.bucket_count) []).getD j ("", 0) := rfl
  refine ⟨j, hfind, hj, by rw [hderef]; exact hjkey, ?_⟩
  have hfl : (m.buckets_.getD (m.hasher_ k % m.bucket_count) []).getD j ("", 0)
      ∈ m.buckets_.flatten :=
    mem_getD_mem_flatten _ _ _ (Nat.mod_lt _ hb) (getD_mem _ hjlt)
  rw [mapsTo, hderef]
  set e := (m.buckets_.getD (m.hasher_ k % m.bucket_count) []).getD j ("", 0) with he
  have hke : (k, e.2) = e := by rw [← hjkey]
  rw [hke]
  exact hfl

theorem find_absent (m : UnorderedMap) (k : String)
    (hb : 0 < m.bucket_count) (hp : ¬ m.keyPresent k) :
    m.find k = some m.endIter := by
  have hidx : m.bucket k = some (m.hasher_ k % m.bucket_count) := by
    rw [bucket, if_neg (by omega)]
  have hscan : scanPos k (m.buckets_.getD (m.hasher_ k % m.bucket_count) []) = none := by
    rw [scanPos_eq_none_iff]
    intro e he hk
    apply hp
    rw [keyPresent]
    refine List.mem_map.mpr ⟨e, ?_, hk⟩
    exact mem_getD_mem_flatten m.buckets_ e _ (Nat.mod_lt _ hb) he
  rw [find_eq_scan m k _ hidx, hscan]

theorem iterEq_end_false (m : UnorderedMap) (idx j : Nat) (h : idx < m.bucket_count) :
    m.iterEq ⟨idx, j⟩ m.endIter = false := by
  rw [iterEq, endIter]
  simp only [Bool.and_eq_false_iff]
  left
  simpa using Nat.ne_of_lt h

theorem iterEq_end_end (m : UnorderedMap) : m.iterEq m.endIter m.endIter = true := by
  simp [iterEq, endIter]

/-! ### `insert`: the duplicate and the fresh case -/

theorem insert_eq_scan (m : UnorderedMap) (kv : Entry) (m1 : UnorderedMap) (idx : Nat)
    (h1 : m.rehash_if_needed = some m1) (h2 : m1.bucket kv.1 = some idx) :
    m.insert kv = (match scanPos kv.1 (m1.buckets_.getD idx []) with
      | some j => some (m1, ⟨idx, j⟩, false)
      | none => some ({ m1 with
                buckets_ := m1.buckets_.set idx ((m1.buckets_.getD idx []) ++ [kv]),
                num_elements_ := m1.num_elements_ + 1 },
            ⟨idx, (m1.buckets_.getD idx []).length⟩, true)) := by
  simp [insert, h1, h2]

/-- Inserting an already-present key: flag `false`, iterator at the existing
entry, count unchanged, stored associations unchanged.  (The growth check
still ran, so the bucket array may have been reorganised.) -/
theorem insert_duplicate_spec (m : UnorderedMap) (k : String) (v : Nat)
    (hwf : m.WF) (hp : m.keyPresent k) :
    ∃ m' c, m.insert (k, v) = some (m', c, false)
      ∧ m'.num_elements_ = m.num_elements_
      ∧ (m'.derefKV c).1 = k
      ∧ m.mapsTo k ((m'.derefKV c).2)
      ∧ (∀ w, m'.mapsTo k w ↔ m.mapsTo k w)
      ∧ m'.WF := by
  have hb := bucket_count_pos_of_present m k hp
  obtain ⟨m1, h1, hnum, hml, hh, hb1, hperm, hwfp, hbc⟩ := rehash_if_needed_spec m hb
  have hwf1 := hwfp hwf
  have hp1 : m1.keyPresent k := by
    rw [keyPresent] at hp ⊢
    exact ((hperm.map Prod.fst).mem_iff).mpr hp
  obtain ⟨j, -, hj, hkey, hmap1⟩ := find_present m1 k hwf1 hp1
  have hidx : m1.bucket k = some (m1.hasher_ k % m1.bucket_count) := by
    rw [bucket, if_neg (by omega)]
  refine ⟨m1, ⟨m1.hasher_ k % m1.bucket_count, j⟩, ?_, hnum, hkey, ?_, ?_, hwf1⟩
  · rw [insert_eq_scan m (k, v) m1 _ h1 hidx, hj]
  · rw [mapsTo] at hmap1 ⊢
    exact hperm.mem_iff.mp hmap1
  · intro w
    rw [mapsTo, mapsTo]
    exact hperm.mem_iff

/-- Inserting a fresh key: flag `true`, count incremented, the new entry
appended; policy members and well-formedness preserved. -/
theorem insert_fresh_spec (m : UnorderedMap) (kv : Entry)
    (hb : 0 < m.bucket_count) (hfresh : ¬ m.keyPresent kv.1) :
    ∃ m' c, m.insert kv = some (m', c, true)
      ∧ m'.num_elements_ = m.num_elements_ + 1
      ∧ m'.max_load_factor_ = m.max_load_factor_
      ∧ m'.hasher_ = m.hasher_
      ∧ 0 < m'.bucket_count
      ∧ (m'.buckets_.flatten).Perm (m.buckets_.flatten ++ [kv])
      ∧ (m.WF → m'.WF) := by
  obtain ⟨m1, h1, hnum, hml, hh, hb1, hperm, hwfp, -⟩ := rehash_if_needed_spec m hb
  have hfresh1 : ¬ m1.keyPresent kv.1 := fun hp1 => hfresh (by
    rw [keyPresent] at hp1 ⊢
    exact ((hperm.map Prod.fst).mem_iff).mp hp1)
  have hidx : m1.bucket kv.1 = some (m1.hasher_ kv.1 % m1.bucket_count) := by
    rw [bucket, if_neg (by omega)]
  have hlt : m1.hasher_ kv.1 % m1.bucket_count < m1.buckets_.length :=
    Nat.mod_lt _ hb1
  have hscan : scanPos kv.1 (m1.buckets_.getD (m1.hasher_ kv.1 % m1.bucket_count) []) = none := by
    rw [scanPos_eq_none_iff]
    intro e he hk
    apply hfresh1
    rw [keyPresent]
    exact List.mem_map.mpr ⟨e, mem_getD_mem_flatten m1.buckets_ e _ hlt he, hk⟩
  set idx := m1.hasher_ kv.1 % m1.bucket_count with hidxdef
  set lst := m1.buckets_.getD idx [] with hlstdef
  set m2 : UnorderedMap := { m1 with
      buckets_ := m1.buckets_.set idx (lst ++ [kv]),
      num_elements_ := m1.num_elements_ + 1 } with hm2
  have hins : m.insert kv = some (m2, ⟨idx, lst.length⟩, true) := by
    rw [insert_eq_scan m kv m1 idx h1 hidx, hscan]
  have hbuck2 : m2.buckets_ = m1.buckets_.set idx (lst ++ [kv]) := rfl
  have hbc2 : m2.bucket_count = m1.bucket_count := by
    rw [bucket_count, bucket_count, hbuck2, List.length_set]
  have hfl2 : (m2.buckets_.flatten).Perm (m1.buckets_.flatten ++ [kv]) := by
    rw [hbuck2, hlstdef]
    exact flatten_set_append_perm m1.buckets_ idx kv hlt
  have hnum2 : m2.num_elements_ = m1.num_elements_ + 1 := rfl
  have hh2 : m2.hasher_ = m1.hasher_ := rfl
  have hml2 : m2.max_load_factor_ = m1.max_load_factor_ := rfl
  refine ⟨m2, ⟨idx, lst.length⟩, hins, by rw [hnum2, hnum], by rw [hml2, hml],
    by rw [hh2, hh], by omega, hfl2.trans (hperm.append_right [kv]), ?_⟩
  intro hwf
  have hwf1 := hwfp hwf
  refine ⟨?_, ?_, ?_⟩
  · intro i hi e he
    rw [hbc2] at hi ⊢
    rw [show m2.hasher_ = m1.hasher_ from rfl]
    by_cases hcase : i = idx
    · subst hcase
      rw [hbuck2, getD_set_self _ _ hlt] at he
      rcases List.mem_append.mp he with hmem | hmem
      · exact hwf1.1 idx hlt e (hlstdef ▸ hmem)
      · have : e = kv := by simpa using hmem
        rw [this, ← hidxdef]
    · rw [hbuck2, getD_set_ne _ _ (fun hc => hcase hc.symm)] at he
      exact hwf1.1 i hi e he
  · have hiff := (hfl2.map Prod.fst).nodup_iff
    rw [hiff, List.map_append, List.nodup_append]
    refine ⟨hwf1.2.1, by simp, ?_⟩
    intro a ha hb
    have : a = kv.1 := by simpa using hb
    subst this
    exact hfresh1 ha
  · show m2.num_elements_ = m2.sumSizes
    rw [sumSizes_eq_flatten_length, hfl2.length_eq, List.length_append,
      hnum2, ← sumSizes_eq_flatten_length]
    have := hwf1.2.2
    simpa using this

/-! ### `erase` -/

theorem flatten_set_decompose (bs : List (List Entry)) (i : Nat) (L : List Entry)
    (h : i < bs.length) :
    (bs.set i L).flatten = (bs.take i).flatten ++ (L ++ (bs.drop (i + 1)).flatten) := by
  induction bs generalizing i with
  | nil => simp at h
  | cons b t ih =>
    cases i with
    | zero => simp
    | succ i =>
      have := ih i (by simpa using h)
      simp only [List.set, List.take, List.drop, List.flatten_cons, List.append_assoc] at this ⊢
      rw [this]

theorem bucket_keys_nodup (m : UnorderedMap) (i : Nat)
    (hwf : m.WF) (hi : i < m.bucket_count) :
    ((m.buckets_.getD i []).map Prod.fst).Nodup := by
  have hdec := flatten_decompose m.buckets_ i hi
  have hsub : (m.buckets_.getD i []).Sublist m.buckets_.flatten := by
    rw [hdec]
    exact (List.sublist_append_left _ _).trans (List.sublist_append_right _ _)
  exact hwf.2.1.sublist (hsub.map Prod.fst)

theorem scanPos_eraseIdx_no_key (k : String) (lst : List Entry) (j : Nat)
    (hnd : (lst.map Prod.fst).Nodup) (hj : scanPos k lst = some j) :
    ∀ e ∈ lst.eraseIdx j, e.1 ≠ k := by
  induction lst generalizing j with
  | nil => simp [scanPos] at hj
  | cons a t ih =>
    rw [List.map_cons, List.nodup_cons] at hnd
    by_cases hk : a.1 = k
    · obtain rfl : (0 : Nat) = j := by simpa [scanPos, hk] using hj
      intro e he hek
      have hmem : e ∈ t := by simpa using he
      exact (hk ▸ hnd.1) (List.mem_map.mpr ⟨e, hmem, hek⟩)
    · simp only [scanPos, if_neg hk] at hj
      obtain ⟨j', hj', hjj⟩ := Option.map_eq_some'.mp hj
      subst hjj
      intro e he hek
      rw [List.eraseIdx_cons_succ] at he
      rcases List.mem_cons.mp he with rfl | hmem
      · exact hk hek
      · exact ih j' hnd.2 hj' e hmem hek

theorem erase_eq_scan (m : UnorderedMap) (k : String) (idx : Nat)
    (hidx : m.bucket k = some idx) :
    m.erase k = (match scanPos k (m.buckets_.getD idx []) with
      | some j => some ({ m with
                buckets_ := m.buckets_.set idx ((m.buckets_.getD idx []).eraseIdx j),
                num_elements_ := m.num_elements_ - 1 }, 1)
      | none => some (m, 0)) := by
  simp [erase, hidx]

/-- Erasing an absent key returns 0 and leaves the table untouched. -/
theorem erase_absent_spec (m : UnorderedMap) (k : String)
    (hb : 0 < m.bucket_count) (hp : ¬ m.keyPresent k) :
    m.erase k = some (m, 0) := by
  have hidx : m.bucket k = some (m.hasher_ k % m.bucket_count) := by
    rw [bucket, if_neg (by omega)]
  have hscan : scanPos k (m.buckets_.getD (m.hasher_ k % m.bucket_count) []) = none := by
    rw [scanPos_eq_none_iff]
    intro e he hk
    apply hp
    rw [keyPresent]
    exact List.mem_map.mpr ⟨e,
      mem_getD_mem_flatten m.buckets_ e _ (Nat.mod_lt _ hb) he, hk⟩
  rw [erase_eq_scan m k _ hidx, hscan]

/-- Erasing a present key: returns 1, removes exactly the matching entry of
its bucket (the remaining entries keep their relative order), decrements the
count, keeps the bucket array length, and afterwards the key is gone. -/
theorem erase_present_spec (m : UnorderedMap) (k : String)
    (hwf : m.WF) (hp : m.keyPresent k) :
    ∃ m' j, m.erase k = some (m', 1)
      ∧ m'.buckets_ = m.buckets_.set (m.hasher_ k % m.bucket_count)
          ((m.buckets_.getD (m.hasher_ k % m.bucket_count) []).take j
            ++ (m.buckets_.getD (m.hasher_ k % m.bucket_count) []).drop (j + 1))
      ∧ ((m.buckets_.getD (m.hasher_ k % m.bucket_count) []).getD j ("", 0)).1 = k
      ∧ m'.num_elements_ + 1 = m.num_elements_
      ∧ m'.num_elements_ = m.num_elements_ - 1
      ∧ m'.bucket_count = m.bucket_count
      ∧ m'.WF
      ∧ ¬ m'.keyPresent k
      ∧ m'.find k = some m'.endIter := by
  have hb := bucket_count_pos_of_present m k hp
  set idx := m.hasher_ k % m.bucket_count with hidxdef
  have hlt : idx < m.buckets_.length := Nat.mod_lt _ hb
  set lst := m.buckets_.getD idx [] with hlstdef
  obtain ⟨v0, hv0⟩ := home_bucket_of_present m k hwf hp
  obtain ⟨j, hj⟩ := scanPos_isSome_of_mem k lst ⟨(k, v0), hv0, rfl⟩
  obtain ⟨hjlt, hjkey⟩ := scanPos_some k lst j hj
  have hidx2 : m.bucket k = some idx := by
    rw [bucket, if_neg (by omega)]
  set m' : UnorderedMap := { m with
      buckets_ := m.buckets_.set idx (lst.eraseIdx j),
      num_elements_ := m.num_elements_ - 1 } with hm'
  have hbuck' : m'.buckets_ = m.buckets_.set idx (lst.eraseIdx j) := rfl
  have herase : m.erase k = some (m', 1) := by
    rw [erase_eq_scan m k idx hidx2, ← hlstdef, hj]
  have hbc' : m'.bucket_count = m.bucket_count := by
    rw [bucket_count, bucket_count, hbuck', List.length_set]
  have hnd := bucket_keys_nodup m idx hwf hlt
  have hnokey := scanPos_eraseIdx_no_key k lst j (hlstdef ▸ hnd) hj
  have hlen' : (lst.eraseIdx j).length = lst.length - 1 := by
    rw [List.length_eraseIdx, if_pos hjlt]
  have hnum_ge : 1 ≤ m.num_elements_ := by
    have := hwf.2.2
    rw [sumSizes_eq_flatten_length] at this
    have hmem : (k, v0) ∈ m.buckets_.flatten :=
      mem_getD_mem_flatten m.buckets_ _ idx hlt hv0
    have : 0 < m.buckets_.flatten.length := List.length_pos.mpr (by
      intro hnil
      rw [hnil] at hmem
      simp at hmem)
    omega
  have hsum := sum_map_length_set m.buckets_ idx (lst.eraseIdx j) hlt
  have hwf' : m'.WF := by
    refine ⟨?_, ?_, ?_⟩
    · intro i hi e he
      rw [hbc'] at hi ⊢
      rw [show m'.hasher_ = m.hasher_ from rfl]
      by_cases hcase : i = idx
      · subst hcase
        rw [hbuck', getD_set_self _ _ hlt] at he
        exact hwf.1 idx hlt e ((List.eraseIdx_sublist lst j).mem (hlstdef ▸ he))
      · rw [hbuck', getD_set_ne _ _ (fun hc => hcase hc.symm)] at he
        exact hwf.1 i hi e he
    · have hdec' : m'.buckets_.flatten
          = (m.buckets_.take idx).flatten
            ++ (lst.eraseIdx j ++ (m.buckets_.drop (idx + 1)).flatten) := by
        rw [hbuck']
        exact flatten_set_decompose m.buckets_ idx _ hlt
      have hdec := flatten_decompose m.buckets_ idx hlt
      have hsub : (m'.buckets_.flatten.map Prod.fst).Sublist
          (m.buckets_.flatten.map Prod.fst) := by
        rw [hdec', hdec, ← hlstdef]
        refine List.Sublist.map Prod.fst ?_
        exact (List.Sublist.refl _).append
          (((List.eraseIdx_sublist lst j).append (List.Sublist.refl _)))
      exact hwf.2.1.sublist hsub
    · show m'.num_elements_ = m'.sumSizes
      have hsz := hwf.2.2
      rw [sumSizes] at hsz ⊢
      rw [← hlstdef] at hsum
      rw [show m'.num_elements_ = m.num_elements_ - 1 from rfl, hbuck']
      omega
  have hnp' : ¬ m'.keyPresent k := by
    intro hp'
    obtain ⟨w, hw⟩ := (keyPresent_iff m' k).mp hp'
    rw [mapsTo, mem_flatten_iff_getD] at hw
    obtain ⟨i, hi, he⟩ := hw
    by_cases hcase : i = idx
    · subst hcase
      rw [hbuck', getD_set_self _ _ hlt] at he
      exact hnokey (k, w) he rfl
    · rw [hbuck', getD_set_ne _ _ (fun hc => hcase hc.symm)] at he
      have hi2 : i < m.buckets_.length := by
        rw [hbuck', List.length_set] at hi
        exact hi
      have := hwf.1 i hi2 (k, w) he
      exact hcase (by rw [← this, ← hidxdef])
  refine ⟨m', j, herase, ?_, (hlstdef ▸ hjkey),
    by show m.num_elements_ - 1 + 1 = m.num_elements_; omega, rfl, hbc', hwf', hnp', ?_⟩
  · rw [hbuck', List.eraseIdx_eq_take_drop_succ]
  · exact find_absent m' k (by omega) hnp'

/-! ### The iterator protocol: a full walk visits every entry once -/

theorem firstNonEmptyIdx_le (bs : List (List Entry)) :
    firstNonEmptyIdx bs ≤ bs.length := by
  induction bs with
  | nil => simp [firstNonEmptyIdx]
  | cons b t ih =>
    rw [firstNonEmptyIdx]
    by_cases hb : b.isEmpty
    · rw [if_pos hb]
      simpa using ih
    · rw [if_neg hb]
      simp

theorem firstNonEmptyIdx_nonempty (bs : List (List Entry))
    (h : firstNonEmptyIdx bs < bs.length) :
    bs.getD (firstNonEmptyIdx bs) [] ≠ [] := by
  induction bs with
  | nil => simp at h
  | cons b t ih =>
    rw [firstNonEmptyIdx]
    by_cases hb : b.isEmpty
    · rw [if_pos hb]
      rw [firstNonEmptyIdx, if_pos hb] at h
      simpa [List.getD] using ih (by simpa using h)
    · rw [if_neg hb]
      simpa [List.getD, List.isEmpty_iff] using hb

theorem flatten_drop_firstNonEmptyIdx (bs : List (List Entry)) :
    (bs.drop (firstNonEmptyIdx bs)).flatten = bs.flatten := by
  induction bs with
  | nil => simp
  | cons b t ih =>
    rw [firstNonEmptyIdx]
    by_cases hb : b.isEmpty
    · rw [if_pos hb, List.drop_succ_cons, ih, List.flatten_cons,
        List.isEmpty_iff.mp hb, List.nil_append]
    · rw [if_neg hb, List.drop_zero]

theorem getD_drop_add (bs : List (List Entry)) (n i : Nat) :
    (bs.drop n).getD i [] = bs.getD (n + i) [] := by
  induction bs generalizing n with
  | nil => simp [List.getD]
  | cons b t ih =>
    cases n with
    | zero => simp
    | succ n =>
      rw [List.drop_succ_cons, ih n, Nat.succ_add]
      rfl

theorem flatten_drop_succ (bs : List (List Entry)) (i : Nat) (h : i < bs.length) :
    (bs.drop i).flatten = bs.getD i [] ++ (bs.drop (i + 1)).flatten := by
  rw [List.drop_eq_getElem_cons h, List.flatten_cons, List.getD_eq_getElem _ _ h]

theorem walkFrom_eq_remFrom (m : UnorderedMap) (fuel : Nat) : ∀ c : Cursor,
    (c.bucket_index_ < m.bucket_count →
      c.pos_ < (m.buckets_.getD c.bucket_index_ []).length) →
    (remFrom m.buckets_ c).length ≤ fuel →
    walkFrom m fuel c = remFrom m.buckets_ c := by
  induction fuel with
  | zero =>
    intro c _ hfuel
    rw [walkFrom, (List.length_eq_zero.mp (by omega) : remFrom m.buckets_ c = [])]
  | succ fuel ih =>
    intro c hval hfuel
    by_cases hb : c.bucket_index_ < m.bucket_count
    · have hpos := hval hb
      have hblen : c.bucket_index_ < m.buckets_.length := hb
      rw [walkFrom, if_pos hb]
      have hdrop : (m.buckets_.getD c.bucket_index_ []).drop c.pos_
          = (m.buckets_.getD c.bucket_index_ []).getD c.pos_ ("", 0)
            :: (m.buckets_.getD c.bucket_index_ []).drop (c.pos_ + 1) := by
        rw [List.drop_eq_getElem_cons hpos, List.getD_eq_getElem _ _ hpos]
      have hderef : m.derefKV c = (m.buckets_.getD c.bucket_index_ []).getD c.pos_ ("", 0) := rfl
      rw [advanceIter, if_pos hb]
      by_cases hnext : c.pos_ + 1 < (m.buckets_.getD c.bucket_index_ []).length
      · rw [if_pos hnext]
        have hrec := ih ⟨c.bucket_index_, c.pos_ + 1⟩ (fun _ => hnext) (by
          have : (remFrom m.buckets_ c).length
              = (remFrom m.buckets_ ⟨c.bucket_index_, c.pos_ + 1⟩).length + 1 := by
            rw [remFrom, remFrom, hdrop]
            simp
          omega)
        rw [hrec, remFrom, hderef, remFrom, hdrop]
        rfl
      · rw [if_neg hnext]
        have hlast : c.pos_ + 1 = (m.buckets_.getD c.bucket_index_ []).length := by omega
        set f := firstNonEmptyIdx (m.buckets_.drop (c.bucket_index_ + 1)) with hf
        have hfle : f ≤ m.buckets_.length - (c.bucket_index_ + 1) := by
          have := firstNonEmptyIdx_le (m.buckets_.drop (c.bucket_index_ + 1))
          simpa using this
        have hrem' : remFrom m.buckets_ ⟨c.bucket_index_ + 1 + f, 0⟩
            = (m.buckets_.drop (c.bucket_index_ + 1)).flatten := by
          rw [remFrom]
          dsimp only
          by_cases hend : c.bucket_index_ + 1 + f < m.buckets_.length
          · rw [List.drop_zero,
              ← flatten_drop_firstNonEmptyIdx (m.buckets_.drop (c.bucket_index_ + 1)), ← hf,
              List.drop_drop, flatten_drop_succ _ _ hend]
          · have h1 : m.buckets_.getD (c.bucket_index_ + 1 + f) [] = [] :=
              List.getD_eq_default _ _ (by omega)
            have h2 : m.buckets_.drop (c.bucket_index_ + 1 + f + 1) = [] :=
              List.drop_eq_nil_of_le (by omega)
            have h3 : (m.buckets_.drop (c.bucket_index_ + 1)).flatten
                = ((m.buckets_.drop (c.bucket_index_ + 1)).drop f).flatten := by
              rw [hf, flatten_drop_firstNonEmptyIdx]
            have h4 : (m.buckets_.drop (c.bucket_index_ + 1)).drop f = [] := by
              rw [List.drop_drop]
              exact List.drop_eq_nil_of_le (by omega)
            rw [h1, h2, h3, h4]
            simp
        have hval' : (⟨c.bucket_index_ + 1 + f, 0⟩ : Cursor).bucket_index_ < m.bucket_count →
            (0 : Nat) < (m.buckets_.getD (c.bucket_index_ + 1 + f) []).length := by
          intro hend
          have hend' : c.bucket_index_ + 1 + f < m.buckets_.length := hend
          have hflt : firstNonEmptyIdx (m.buckets_.drop (c.bucket_index_ + 1))
              < (m.buckets_.drop (c.bucket_index_ + 1)).length := by
            rw [← hf, List.length_drop]
            omega
          have hne := firstNonEmptyIdx_nonempty (m.buckets_.drop (c.bucket_index_ + 1)) hflt
          rw [← hf, getD_drop_add] at hne
          exact List.length_pos.mpr hne
        have hsplit : remFrom m.buckets_ c
            = m.derefKV c :: (m.buckets_.drop (c.bucket_index_ + 1)).flatten := by
          rw [remFrom, hdrop, hderef]
          have : (m.buckets_.getD c.bucket_index_ []).drop (c.pos_ + 1) = [] :=
            List.drop_eq_nil_of_le (by omega)
          rw [this]
          rfl
        have hrec := ih ⟨c.bucket_index_ + 1 + f, 0⟩ hval' (by
          rw [hrem']
          have : (remFrom m.buckets_ c).length
              = (m.buckets_.drop (c.bucket_index_ + 1)).flatten.length + 1 := by
            rw [hsplit]
            simp
          omega)
        rw [hrec, hrem', hsplit]
    · rw [walkFrom, if_neg hb]
      have hble : m.buckets_.length ≤ c.bucket_index_ := by
        have h0 : m.bucket_count ≤ c.bucket_index_ := by omega
        exact h0
      have hd : m.buckets_.drop (c.bucket_index_ + 1) = [] :=
        List.drop_eq_nil_of_le (by omega)
      rw [remFrom, hd, List.getD_eq_default _ _ hble]
      simp

/-- The `begin()`-to-`end()` walk enumerates the buckets' contents in order. -/
theorem traversal_eq_flatten (m : UnorderedMap) :
    m.traversal = m.buckets_.flatten := by
  have hrem : remFrom m.buckets_ m.beginIter = m.buckets_.flatten := by
    rw [remFrom, beginIter]
    by_cases hend : firstNonEmptyIdx m.buckets_ < m.buckets_.length
    · show (m.buckets_.getD (firstNonEmptyIdx m.buckets_) []).drop 0 ++ _ = _
      rw [List.drop_zero, ← flatten_drop_succ _ _ hend, flatten_drop_firstNonEmptyIdx]
    · have h1 : m.buckets_.getD (firstNonEmptyIdx m.buckets_) [] = [] :=
        List.getD_eq_default _ _ (by omega)
      have h2 : m.buckets_.drop (firstNonEmptyIdx m.buckets_ + 1) = [] :=
        List.drop_eq_nil_of_le (by omega)
      have h3 : m.buckets_.flatten
          = ((m.buckets_.drop (firstNonEmptyIdx m.buckets_))).flatten := by
        rw [flatten_drop_firstNonEmptyIdx]
      have h4 : m.buckets_.drop (firstNonEmptyIdx m.buckets_) = [] :=
        List.drop_eq_nil_of_le (by omega)
      rw [h1, h2, h3, h4]
      simp
  rw [traversal, walkFrom_eq_remFrom m m.sumSizes m.beginIter ?hval ?hfuel, hrem]
  case hval =>
    intro hb
    have := firstNonEmptyIdx_nonempty m.buckets_ hb
    show 0 < _
    exact List.length_pos.mpr this
  case hfuel =>
    rw [hrem, ← sumSizes_eq_flatten_length]

/-! ### Size consistency -/

theorem range_map_getD (bs : List (List Entry)) :
    (List.range bs.length).map (fun i => bs.getD i []) = bs := by
  induction bs with
  | nil => rfl
  | cons b t ih =>
    rw [List.length_cons, List.range_succ_eq_map, List.map_cons]
    congr 1
    rw [List.map_map]
    have hcomp : ((fun i => (b :: t).getD i []) ∘ Nat.succ) = fun i => t.getD i [] := rfl
    rw [hcomp, ih]

theorem sum_bucket_sizes (m : UnorderedMap) :
    ((List.range m.bucket_count).map (fun i => m.bucket_size i)).sum = m.sumSizes := by
  rw [sumSizes]
  have h1 : (List.range m.bucket_count).map (fun i => m.bucket_size i)
      = ((List.range m.buckets_.length).map (fun i => m.buckets_.getD i [])).map List.length := by
    rw [List.map_map]
    rfl
  rw [h1, range_map_getD]

theorem rehash_size_consistent (m m' : UnorderedMap) (n : Nat)
    (h : m.rehash n = some m') (hm : m.size_consistent) : m'.size_consistent := by
  rw [rehash] at h
  by_cases hc : n = 0 ∧ m.buckets_.flatten ≠ []
  · rw [if_pos hc] at h
    cases h
  · rw [if_neg hc] at h
    obtain rfl : { m with buckets_ := rehashBuckets m.hasher_ n m.buckets_ } = m' := by
      injection h
    by_cases hn : 0 < n
    · have hperm := rehashBuckets_flatten_perm m.hasher_ n m.buckets_ hn
      rw [size_consistent, sumSizes_eq_flatten_length] at hm ⊢
      show m.num_elements_ = _
      rw [show ({ m with buckets_ := rehashBuckets m.hasher_ n m.buckets_ }
          : UnorderedMap).buckets_ = rehashBuckets m.hasher_ n m.buckets_ from rfl,
        hperm.length_eq]
      exact hm
    · have hn0 : n = 0 := by omega
      subst hn0
      have hfl : m.buckets_.flatten = [] := by
        by_contra hne
        exact hc ⟨rfl, hne⟩
      rw [size_consistent, sumSizes_eq_flatten_length] at hm ⊢
      show m.num_elements_ = _
      rw [show ({ m with buckets_ := rehashBuckets m.hasher_ 0 m.buckets_ }
          : UnorderedMap).buckets_ = rehashBuckets m.hasher_ 0 m.buckets_ from rfl]
      rw [rehashBuckets, hfl]
      simpa [hfl] using hm

theorem rehash_if_needed_size_consistent (m m' : UnorderedMap)
    (h : m.rehash_if_needed = some m') (hm : m.size_consistent) : m'.size_consistent := by
  rw [rehash_if_needed] at h
  by_cases hex : m.load_factor_exceeds
  · rw [if_pos hex] at h
    exact rehash_size_consistent m m' _ h hm
  · rw [if_neg hex] at h
    obtain rfl : m = m' := by injection h
    exact hm

theorem insert_size_consistent (m m' : UnorderedMap) (kv : Entry) (c : Cursor) (fl : Bool)
    (h : m.insert kv = some (m', c, fl)) (hm : m.size_consistent) : m'.size_consistent := by
  rcases h1 : m.rehash_if_needed with _ | m1
  · rw [insert, h1] at h
    cases h
  rcases h2 : m1.bucket kv.1 with _ | idx
  · have hnone : m.insert kv = none := by simp [insert, h1, h2]
    rw [hnone] at h
    cases h
  have hm1 := rehash_if_needed_size_consistent m m1 h1 hm
  have hlt : idx < m1.buckets_.length := by
    rw [bucket] at h2
    by_cases hz : m1.bucket_count = 0
    · rw [if_pos hz] at h2
      cases h2
    · rw [if_neg hz] at h2
      obtain rfl : m1.hasher_ kv.1 % m1.bucket_count = idx := by injection h2
      exact Nat.mod_lt _ (by omega)
  rw [insert_eq_scan m kv m1 idx h1 h2] at h
  rcases h3 : scanPos kv.1 (m1.buckets_.getD idx []) with _ | j
  · rw [h3] at h
    obtain ⟨rfl, -⟩ : ({ m1 with
        buckets_ := m1.buckets_.set idx ((m1.buckets_.getD idx []) ++ [kv]),
        num_elements_ := m1.num_elements_ + 1 } = m') ∧ True := by
      constructor
      · injection h with h'
        injection h'
      · trivial
    have hsum := sum_map_length_set m1.buckets_ idx ((m1.buckets_.getD idx []) ++ [kv]) hlt
    rw [size_consistent, sumSizes] at hm1 ⊢
    show m1.num_elements_ + 1 = _
    rw [show ({ m1 with
        buckets_ := m1.buckets_.set idx ((m1.buckets_.getD idx []) ++ [kv]),
        num_elements_ := m1.num_elements_ + 1 } : UnorderedMap).buckets_
        = m1.buckets_.set idx ((m1.buckets_.getD idx []) ++ [kv]) from rfl]
    rw [List.length_append, List.length_singleton] at hsum
    omega
  · rw [h3] at h
    obtain rfl : m1 = m' := by
      injection h with h'
      injection h'
    exact hm1

theorem erase_size_consistent (m m' : UnorderedMap) (k : String) (r : Nat)
    (h : m.erase k = some (m', r)) (hm : m.size_consistent) : m'.size_consistent := by
  rcases h2 : m.bucket k with _ | idx
  · rw [erase, h2] at h
    cases h
  have hlt : idx < m.buckets_.length := by
    rw [bucket] at h2
    by_cases hz : m.bucket_count = 0
    · rw [if_pos hz] at h2
      cases h2
    · rw [if_neg hz] at h2
      obtain rfl : m.hasher_ k % m.bucket_count = idx := by injection h2
      exact Nat.mod_lt _ (by omega)
  rw [erase_eq_scan m k idx h2] at h
  rcases h3 : scanPos k (m.buckets_.getD idx []) with _ | j
  · rw [h3] at h
    obtain rfl : m = m' := by
      injection h with h'
      injection h'
    exact hm
  · rw [h3] at h
    obtain rfl : ({ m with
        buckets_ := m.buckets_.set idx ((m.buckets_.getD idx []).eraseIdx j),
        num_elements_ := m.num_elements_ - 1 } = m') := by
      injection h with h'
      injection h'
    obtain ⟨hjlt, -⟩ := scanPos_some k _ j h3
    have hsum := sum_map_length_set m.buckets_ idx ((m.buckets_.getD idx []).eraseIdx j) hlt
    have hlen := List.length_eraseIdx (l := m.buckets_.getD idx []) (i := j)
    rw [if_pos hjlt] at hlen
    rw [size_consistent, sumSizes] at hm ⊢
    show m.num_elements_ - 1 = _
    rw [show ({ m with
        buckets_ := m.buckets_.set idx ((m.buckets_.getD idx []).eraseIdx j),
        num_elements_ := m.num_elements_ - 1 } : UnorderedMap).buckets_
        = m.buckets_.set idx ((m.buckets_.getD idx []).eraseIdx j) from rfl]
    omega

theorem insertAll_size_consistent : ∀ (l : List Entry) (m m' : UnorderedMap),
    insertAll m l = some m' → m.size_consistent → m'.size_consistent := by
  intro l
  induction l with
  | nil =>
    intro m m' h hm
    obtain rfl : m = m' := by
      rw [insertAll, List.foldlM_nil] at h
      injection h
    exact hm
  | cons kv t ih =>
    intro m m' h hm
    rw [insertAll, List.foldlM_cons] at h
    rcases h1 : m.insert kv with _ | r
    · rw [h1] at h
      cases h
    · rw [h1] at h
      simp only [Option.map_some', Option.some_bind] at h
      exact ih r.1 m' h (insert_size_consistent m r.1 kv r.2.1 r.2.2 (by rw [h1]) hm)

/-! ### Re-insertion of fresh keys (initializer-list and copy construction) -/

theorem insertAll_fresh_spec : ∀ (l : List Entry) (m : UnorderedMap),
    0 < m.bucket_count → m.WF → (l.map Prod.fst).Nodup →
    (∀ e ∈ l, ¬ m.keyPresent e.1) →
    ∃ m', insertAll m l = some m'
      ∧ (m'.buckets_.flatten).Perm (m.buckets_.flatten ++ l)
      ∧ m'.num_elements_ = m.num_elements_ + l.length
      ∧ m'.max_load_factor_ = m.max_load_factor_
      ∧ m'.hasher_ = m.hasher_
      ∧ m'.WF ∧ 0 < m'.bucket_count := by
  intro l
  induction l with
  | nil =>
    intro m hb hwf _ _
    exact ⟨m, by rw [insertAll, List.foldlM_nil]; rfl, by simp, by simp, rfl, rfl, hwf, hb⟩
  | cons kv t ih =>
    intro m hb hwf hnd hfresh
    rw [List.map_cons, List.nodup_cons] at hnd
    obtain ⟨m2, c, hins, hnum2, hml2, hh2, hb2, hperm2, hwfp2⟩ :=
      insert_fresh_spec m kv hb (hfresh kv (by simp))
    have hwf2 := hwfp2 hwf
    have hkeys2 : ∀ e ∈ t, ¬ m2.keyPresent e.1 := by
      intro e he hp2
      rw [keyPresent] at hp2
      have := (hperm2.map Prod.fst).mem_iff.mp hp2
      rw [List.map_append] at this
      rcases List.mem_append.mp this with hmem | hmem
      · exact hfresh e (by simp [he]) hmem
      · have : e.1 = kv.1 := by simpa using hmem
        exact hnd.1 (this ▸ List.mem_map.mpr ⟨e, he, rfl⟩)
    obtain ⟨m', hall, hperm', hnum', hml', hh', hwf', hb'⟩ := ih m2 hb2 hwf2 hnd.2 hkeys2
    refine ⟨m', ?_, ?_, by rw [hnum', hnum2]; simp [Nat.add_assoc, Nat.add_comm 1], by rw [hml', hml2], by rw [hh', hh2], hwf', hb'⟩
    · rw [insertAll, List.foldlM_cons, hins]
      simpa [insertAll] using hall
    · refine hperm'.trans ?_
      refine (hperm2.append_right t).trans ?_
      rw [List.append_assoc, List.singleton_append]

theorem mkEmpty_WF (bc : Nat) (h : String → Nat) : (mkEmpty bc h).WF := by
  refine ⟨?_, ?_, ?_⟩
  · intro i hi e he
    rw [show (mkEmpty bc h).buckets_ = List.replicate bc [] from rfl,
      getD_replicate_nil] at he
    simp at he
  · rw [show (mkEmpty bc h).buckets_ = List.replicate bc [] from rfl,
      flatten_replicate_nil]
    simp
  · show 0 = _
    rw [sumSizes_eq_flatten_length,
      show (mkEmpty bc h).buckets_ = List.replicate bc [] from rfl,
      flatten_replicate_nil]
    rfl

/-! ### The load factor as a quotient -/

theorem load_factor_eq_div (m : UnorderedMap) :
    m.load_factor = (m.num_elements_ : ℚ) / (m.bucket_count : ℚ) := by
  rw [load_factor, Rat.mkRat_eq_div]
  push_cast
  ring

theorem load_factor_exceeds_iff (m : UnorderedMap) (hb : 0 < m.bucket_count) :
    m.load_factor_exceeds = true ↔ m.max_load_factor_ < m.load_factor := by
  rw [load_factor_exceeds, if_neg (by omega)]
  simp

/-! ## The claims -/

/-- **C1.** For every well-formed table and every key `k` already present
(per the equality predicate), `insert((k,v))` returns the flag `false`
together with a cursor at the existing entry, leaves `size()` unchanged, and
the stored value for `k` is unchanged (so it remains the first value ever
inserted for `k`; the concrete `("x",1)`/`("x",2)` scenario is the witness). -/
theorem c1_insert_existing_key (m : UnorderedMap) (k : String) (v : Nat)
    (hwf : m.WF) (hp : m.keyPresent k) :
    ∃ m' c, m.insert (k, v) = some (m', c, false)
      ∧ m'.size = m.size
      ∧ (m'.derefKV c).1 = k
      ∧ m.mapsTo k ((m'.derefKV c).2)
      ∧ (∀ w, m'.mapsTo k w ↔ m.mapsTo k w) := by
  obtain ⟨m', c, hins, hnum, hkey, hmap, hiff, -⟩ := insert_duplicate_spec m k v hwf hp
  exact ⟨m', c, hins, hnum, hkey, hmap, hiff⟩

theorem c1_insert_existing_key_witness :
    (xTab.WF ∧ xTab.keyPresent "x")
    ∧ (∃ m' c, xTab.insert ("x", 2) = some (m', c, false)
        ∧ m'.size = xTab.size
        ∧ (m'.derefKV c).1 = "x"
        ∧ xTab.mapsTo "x" ((m'.derefKV c).2)
        ∧ (∀ w, m'.mapsTo "x" w ↔ xTab.mapsTo "x" w))
    ∧ ((xTab.insert ("x", 2)).map (fun r => ((r.1.derefKV r.2.1).2, r.2.2))
        = some (1, false)) :=
  ⟨⟨by decide, by decide⟩,
   c1_insert_existing_key xTab "x" 2 (by decide) (by decide),
   by decide⟩

/-- **C2.** The growth check runs at the start of every insertion path
(`insert`; `emplace` delegates to `insert`, and `operator[]` is defined by
`insert`) and after every `max_load_factor(ml)` call; exactly when
`load_factor() > max_load_factor()` at that check the table rehashes to
double its bucket count (otherwise it is left alone); consequently once
`size()/bucket_count()` exceeds the threshold, the next insert doubles
`bucket_count()` and brings `load_factor()` to at most its previous value. -/
theorem c2_growth_check (m : UnorderedMap) (kv : Entry)
    (hb : 0 < m.bucket_count) (hn : 0 < m.num_elements_)
    (hex : m.max_load_factor_ < m.load_factor) :
    (∃ m' c fl, m.insert kv = some (m', c, fl)
      ∧ m'.bucket_count = 2 * m.bucket_count
      ∧ m'.load_factor ≤ m.load_factor)
    ∧ (∀ m0 : UnorderedMap, 0 < m0.bucket_count →
        ¬ m0.max_load_factor_ < m0.load_factor → m0.rehash_if_needed = some m0)
    ∧ (∀ kv0, m.emplace kv0 = m.insert kv0)
    ∧ (∀ ml, ml < m.load_factor →
        ∃ m2, m.set_max_load_factor ml = some m2
          ∧ m2.bucket_count = 2 * m.bucket_count) := by
  have harith : ∀ n' : Nat, n' ≤ m.num_elements_ + 1 →
      mkRat n' (2 * m.bucket_count) ≤ m.load_factor := by
    intro n' hle
    have hbQ : (0 : ℚ) < (m.bucket_count : ℚ) := by
      exact_mod_cast hb
    have h2bQ : (0 : ℚ) < ((2 * m.bucket_count : Nat) : ℚ) := by
      exact_mod_cast (by omega : 0 < 2 * m.bucket_count)
    have hmul : n' * m.bucket_count ≤ m.num_elements_ * (2 * m.bucket_count) := by
      calc n' * m.bucket_count ≤ (m.num_elements_ + 1) * m.bucket_count :=
            Nat.mul_le_mul_right _ hle
        _ = m.num_elements_ * m.bucket_count + m.bucket_count := by ring
        _ ≤ m.num_elements_ * m.bucket_count + m.num_elements_ * m.bucket_count := by
            have hb' : m.bucket_count ≤ m.num_elements_ * m.bucket_count :=
              Nat.le_mul_of_pos_left _ hn
            omega
        _ = m.num_elements_ * (2 * m.bucket_count) := by ring
    have hdiv : ((n' : ℚ)) / (((2 * m.bucket_count : Nat) : Nat) : ℚ)
        ≤ (m.num_elements_ : ℚ) / (m.bucket_count : ℚ) := by
      rw [div_le_div_iff₀ h2bQ hbQ]
      exact_mod_cast hmul
    rw [load_factor_eq_div]
    rw [Rat.mkRat_eq_div]
    push_cast at hdiv ⊢
    exact hdiv
  have hexB : m.load_factor_exceeds = true := (load_factor_exceeds_iff m hb).mpr hex
  refine ⟨?_, ?_, fun _ => rfl, ?_⟩
  · have hrin : m.rehash_if_needed = m.rehash (m.bucket_count * 2) := by
      rw [rehash_if_needed, if_pos hexB]
    obtain ⟨m1, heq, hbc1, hnum1, -, -, -, -, -⟩ :=
      rehash_spec m (m.bucket_count * 2) (by omega)
    have h1 : m.rehash_if_needed = some m1 := by rw [hrin, heq]
    have hb1 : 0 < m1.bucket_count := by omega
    have hidx : m1.bucket kv.1 = some (m1.hasher_ kv.1 % m1.bucket_count) := by
      rw [bucket, if_neg (by omega)]
    have hlt : m1.hasher_ kv.1 % m1.bucket_count < m1.buckets_.length :=
      Nat.mod_lt _ hb1
    have hlen1 : m1.buckets_.length = m1.bucket_count := rfl
    rw [insert_eq_scan m kv m1 _ h1 hidx]
    rcases h3 : scanPos kv.1 (m1.buckets_.getD (m1.hasher_ kv.1 % m1.bucket_count) []) with _ | j
    · have hbceq : (m1.buckets_.set (m1.hasher_ kv.1 % m1.bucket_count)
          ((m1.buckets_.getD (m1.hasher_ kv.1 % m1.bucket_count) []) ++ [kv])).length
          = 2 * m.bucket_count := by
        rw [List.length_set]
        omega
      refine ⟨_, _, _, rfl, hbceq, ?_⟩
      show mkRat (m1.num_elements_ + 1)
          (m1.buckets_.set (m1.hasher_ kv.1 % m1.bucket_count)
            ((m1.buckets_.getD (m1.hasher_ kv.1 % m1.bucket_count) []) ++ [kv])).length ≤ _
      rw [hbceq, hnum1]
      exact harith (m.num_elements_ + 1) (by omega)
    · refine ⟨m1, _, _, rfl, by omega, ?_⟩
      show mkRat m1.num_elements_ m1.bucket_count ≤ _
      rw [show m1.bucket_count = 2 * m.bucket_count by omega, hnum1]
      exact harith m.num_elements_ (by omega)
  · intro m0 hb0 hnex
    have h0 : m0.load_factor_exceeds = false := by
      by_contra hne
      exact hnex ((load_factor_exceeds_iff m0 hb0).mp (by
        rcases hbv : m0.load_factor_exceeds with _ | _
        · exact absurd hbv hne
        · rfl))
    rw [rehash_if_needed, h0]
    rfl
  · intro ml hml
    set mm : UnorderedMap := { m with max_load_factor_ := ml } with hmm
    have hbm : 0 < mm.bucket_count := hb
    have hlfm : mm.load_factor = m.load_factor := rfl
    have hexm : mm.load_factor_exceeds = true := by
      rw [load_factor_exceeds_iff mm hbm, hlfm]
      exact hml
    have hbcm : mm.bucket_count = m.bucket_count := rfl
    obtain ⟨m2, heq, hbc2, -, -, -, -, -, -⟩ :=
      rehash_spec mm (mm.bucket_count * 2) (by omega)
    refine ⟨m2, ?_, by omega⟩
    rw [set_max_load_factor, ← hmm, rehash_if_needed, if_pos hexm, heq]

theorem c2_growth_check_witness :
    (0 < overTab.bucket_count ∧ 0 < overTab.num_elements_
      ∧ overTab.max_load_factor_ < overTab.load_factor)
    ∧ (∃ m' c fl, overTab.insert ("c", 3) = some (m', c, fl)
      ∧ m'.bucket_count = 2 * overTab.bucket_count
      ∧ m'.load_factor ≤ overTab.load_factor) :=
  ⟨⟨by decide, by decide, by decide⟩,
   (c2_growth_check overTab ("c", 3) (by decide) (by decide) (by decide)).1⟩

/-- **C3 counterexample.** Starting from an empty table with 16 buckets and
`max_load_factor = 1.0`, inserting the 17 distinct keys `"a"`..`"q"` does
*not* grow `bucket_count()` beyond 16: the growth check runs *before* each
insert with a strict comparison, so the check before the 17th insert sees
`16/16 > 1` false and no rehash ever fires. -/
theorem c3_no_rehash_counterexample :
    ¬ ((ofList abcPairs 16 charSumHash).map
        (fun m => decide (16 < m.bucket_count)) = some true) := by
  decide

/-- **C3 amended.** After inserting `"a"`..`"q"` into an empty 16-bucket
table with `max_load_factor = 1.0`: `size() == 17`, every key is findable
with its inserted value, but `bucket_count()` is still 16 (no rehash has
fired yet — the pre-insert check uses a strict comparison); the table's load
factor now exceeds the threshold, so the *18th* insert doubles
`bucket_count()` to 32. -/
theorem c3_seventeen_inserts_amended :
    ((ofList abcPairs 16 charSumHash).map (fun m =>
        m.bucket_count == 16
        && m.size == 17
        && m.load_factor_exceeds
        && abcPairs.all (fun p => ((m.find p.1).map (fun c => m.derefKV c)) == some p)
        && (((m.insert ("r", 17)).map (fun r => r.1.bucket_count)) == some 32)))
      = some true := by
  decide

/-- **C4.** For every table state and every `n ≥ 1`, `rehash(n)` sets
`bucket_count()` to exactly `n` (no rounding, no minimum floor), preserves
`size()` and the multiset of stored pairs, and each new bucket `i` holds
exactly the entries with `hash(key) % n == i`, in the order entries were
visited scanning the old bucket array (bucket 0 first, in intra-bucket
order) — which is precisely the `filter` of the concatenated old contents. -/
theorem c4_rehash_exact (m : UnorderedMap) (n : Nat) (hn : 1 ≤ n) :
    ∃ m', m.rehash n = some m'
      ∧ m'.bucket_count = n
      ∧ m'.size = m.size
      ∧ ((m'.buckets_.flatten).Perm m.buckets_.flatten)
      ∧ (∀ i, i < n → m'.buckets_.getD i []
          = m.buckets_.flatten.filter (fun kv => m.hasher_ kv.1 % n == i)) := by
  obtain ⟨m', heq, hbc, hnum, -, -, hperm, hget, -⟩ := rehash_spec m n (by omega)
  exact ⟨m', heq, hbc, hnum, hperm, hget⟩

theorem replicate_size_consistent (bc : Nat) (ml : ℚ) (h : String → Nat) :
    UnorderedMap.size_consistent ⟨List.replicate bc [], 0, ml, h⟩ := by
  rw [size_consistent, sumSizes_eq_flatten_length]
  show 0 = (List.replicate bc ([] : List Entry)).flatten.length
  rw [flatten_replicate_nil]
  rfl

theorem sum_map_length_nil_map (bs : List (List Entry)) :
    ((bs.map (fun _ => ([] : List Entry))).map List.length).sum = 0 := by
  induction bs with
  | nil => rfl
  | cons b t ih =>
    rw [List.map_cons, List.map_cons, List.sum_cons, ih]
    rfl

/-- **C5.** The size bookkeeping is consistent — `size()` equals the sum of
`bucket_size(i)` over all buckets and equals the number of entries a full
`begin()`-to-`end()` traversal visits — and this consistency is preserved by
construction (sized, initializer-list, copy, move), `insert`, `emplace`,
`operator[]`, `erase`, `clear`, `rehash`, the `max_load_factor` setter and
`swap`. -/
theorem c5_size_consistency :
    (∀ bc h, (mkEmpty bc h).size_consistent)
    ∧ (∀ init bc h m', ofList init bc h = some m' → m'.size_consistent)
    ∧ (∀ m m' : UnorderedMap, m.copyCtor = some m' → m'.size_consistent)
    ∧ (∀ m : UnorderedMap, m.size_consistent →
        (moveCtor m).1.size_consistent ∧ (moveCtor m).2.size_consistent)
    ∧ (∀ t m : UnorderedMap, m.size_consistent →
        (moveAssign t m).1.size_consistent ∧ (moveAssign t m).2.size_consistent)
    ∧ (∀ (m m' : UnorderedMap) kv c fl, m.insert kv = some (m', c, fl) →
        m.size_consistent → m'.size_consistent)
    ∧ (∀ (m m' : UnorderedMap) kv c fl, m.emplace kv = some (m', c, fl) →
        m.size_consistent → m'.size_consistent)
    ∧ (∀ (m m' : UnorderedMap) k v, m.getOrInsert k = some (m', v) →
        m.size_consistent → m'.size_consistent)
    ∧ (∀ (m m' : UnorderedMap) k r, m.erase k = some (m', r) →
        m.size_consistent → m'.size_consistent)
    ∧ (∀ m : UnorderedMap, m.clear.size_consistent)
    ∧ (∀ (m m' : UnorderedMap) n, m.rehash n = some m' →
        m.size_consistent → m'.size_consistent)
    ∧ (∀ (m m' : UnorderedMap) ml, m.set_max_load_factor ml = some m' →
        m.size_consistent → m'.size_consistent)
    ∧ (∀ a b : UnorderedMap, a.size_consistent → b.size_consistent →
        (swapTables a b).1.size_consistent ∧ (swapTables a b).2.size_consistent)
    ∧ (∀ m : UnorderedMap, m.size_consistent →
        m.size = m.sumSizes
        ∧ m.size = ((List.range m.bucket_count).map (fun i => m.bucket_size i)).sum
        ∧ m.size = m.traversal.length) := by
  refine ⟨?_, ?_, ?_, ?_, ?_, ?_, ?_, ?_, ?_, ?_, ?_, ?_, ?_, ?_⟩
  · intro bc h
    exact (mkEmpty_WF bc h).2.2
  · intro init bc h m' heq
    exact insertAll_size_consistent init _ m' heq (mkEmpty_WF bc h).2.2
  · intro m m' heq
    exact insertAll_size_consistent _ _ m' heq
      (replicate_size_consistent m.bucket_count m.max_load_factor_ m.hasher_)
  · intro m hm
    exact ⟨hm, replicate_size_consistent 0 m.max_load_factor_ m.hasher_⟩
  · intro t m hm
    exact ⟨hm, replicate_size_consistent 0 m.max_load_factor_ m.hasher_⟩
  · intro m m' kv c fl h hm
    exact insert_size_consistent m m' kv c fl h hm
  · intro m m' kv c fl h hm
    exact insert_size_consistent m m' kv c fl h hm
  · intro m m' k v h hm
    rcases hi : m.insert (k, 0) with _ | r
    · rw [getOrInsert, hi] at h
      cases h
    · rw [getOrInsert, hi] at h
      have h' : (r.1, (r.1.derefKV r.2.1).2) = (m', v) := by
        injection h
      have hr1 : r.1 = m' := congrArg Prod.fst h'
      exact hr1 ▸ insert_size_consistent m r.1 (k, 0) r.2.1 r.2.2 (by rw [hi]) hm
  · intro m m' k r h hm
    exact erase_size_consistent m m' k r h hm
  · intro m
    rw [size_consistent, sumSizes]
    show 0 = _
    rw [show m.clear.buckets_ = m.buckets_.map (fun _ => []) from rfl,
      sum_map_length_nil_map]
  · intro m m' n h hm
    exact rehash_size_consistent m m' n h hm
  · intro m m' ml h hm
    exact rehash_if_needed_size_consistent _ m' h hm
  · intro a b ha hb
    exact ⟨hb, ha⟩
  · intro m hm
    refine ⟨hm, ?_, ?_⟩
    · rw [sum_bucket_sizes]
      exact hm
    · rw [traversal_eq_flatten, ← sumSizes_eq_flatten_length]
      exact hm

theorem c5_size_consistency_witness :
    xTab.size_consistent
    ∧ (xTab.size = xTab.sumSizes
      ∧ xTab.size = ((List.range xTab.bucket_count).map (fun i => xTab.bucket_size i)).sum
      ∧ xTab.size = xTab.traversal.length) :=
  ⟨by decide,
   c5_size_consistency.2.2.2.2.2.2.2.2.2.2.2.2.2 xTab (by decide)⟩

/-- **C6.** `erase(k)` on a present key (in a well-formed table) returns 1,
decreases `size()` by exactly one, removes only the matching entry of its
bucket — the remaining entries keep their relative order (`take j ++ drop
(j+1)`) and all other buckets are untouched — and a subsequent `find(k)`
returns the end iterator; on an absent key it returns 0 and leaves the table
unchanged; the bucket array length never changes. -/
theorem c6_erase (m : UnorderedMap) (k : String)
    (hwf : m.WF) (hb : 0 < m.bucket_count) :
    (m.keyPresent k →
      ∃ m' j, m.erase k = some (m', 1)
        ∧ m'.size + 1 = m.size
        ∧ m'.bucket_count = m.bucket_count
        ∧ m'.buckets_ = m.buckets_.set (m.hasher_ k % m.bucket_count)
            ((m.buckets_.getD (m.hasher_ k % m.bucket_count) []).take j
              ++ (m.buckets_.getD (m.hasher_ k % m.bucket_count) []).drop (j + 1))
        ∧ ((m.buckets_.getD (m.hasher_ k % m.bucket_count) []).getD j ("", 0)).1 = k
        ∧ m'.find k = some m'.endIter)
    ∧ (¬ m.keyPresent k → m.erase k = some (m, 0)) := by
  constructor
  · intro hp
    obtain ⟨m', j, herase, hbuck, hkey, hnum, -, hbc, -, -, hfind⟩ :=
      erase_present_spec m k hwf hp
    exact ⟨m', j, herase, hnum, hbc, hbuck, hkey, hfind⟩
  · intro hp
    exact erase_absent_spec m k hb hp

theorem c6_erase_witness :
    (xTab.WF ∧ 0 < xTab.bucket_count ∧ xTab.keyPresent "x")
    ∧ (∃ m' j, xTab.erase "x" = some (m', 1)
        ∧ m'.size + 1 = xTab.size
        ∧ m'.bucket_count = xTab.bucket_count
        ∧ m'.buckets_ = xTab.buckets_.set (xTab.hasher_ "x" % xTab.bucket_count)
            ((xTab.buckets_.getD (xTab.hasher_ "x" % xTab.bucket_count) []).take j
              ++ (xTab.buckets_.getD (xTab.hasher_ "x" % xTab.bucket_count) []).drop (j + 1))
        ∧ ((xTab.buckets_.getD (xTab.hasher_ "x" % xTab.bucket_count) []).getD j ("", 0)).1 = "x"
        ∧ m'.find "x" = some m'.endIter)
    ∧ (xTab.erase "y" = some (xTab, 0)) :=
  ⟨⟨by decide, by decide, by decide⟩,
   (c6_erase xTab "x" (by decide) (by decide)).1 (by decide),
   (c6_erase xTab "y" (by decide) (by decide)).2 (by decide)⟩

theorem atVal_eq (m : UnorderedMap) (k : String) (c : Cursor)
    (h : m.find k = some c) :
    m.atVal k = if m.iterEq c m.endIter then some (Except.error "Key not found")
      else some (Except.ok (m.derefKV c).2) := by
  simp [atVal, h]

/-- **C7.** `at(k)` raises `KeyNotFound` (`std::out_of_range`) exactly when
`k` is absent and otherwise returns the mapped value; it never mutates the
table (in this model it does not even produce a state).  The non-throwing
paths signal absence without an error: `find` returns the end iterator,
`contains` returns `false`, `count` returns `0`, and `count` is always 0 or
1. -/
theorem c7_at_lookup (m : UnorderedMap) (k : String)
    (hwf : m.WF) (hb : 0 < m.bucket_count) :
    (m.atVal k = some (Except.error "Key not found") ↔ ¬ m.keyPresent k)
    ∧ (m.keyPresent k → ∃ v, m.atVal k = some (Except.ok v) ∧ m.mapsTo k v)
    ∧ (¬ m.keyPresent k → m.find k = some m.endIter)
    ∧ m.contains k = some (decide (m.keyPresent k))
    ∧ m.count k = some (if m.keyPresent k then 1 else 0)
    ∧ (∀ cnt, m.count k = some cnt → cnt ≤ 1) := by
  by_cases hp : m.keyPresent k
  · obtain ⟨j, hfind, -, -, hmap⟩ := find_present m k hwf hp
    have hlt : m.hasher_ k % m.bucket_count < m.bucket_count := Nat.mod_lt _ hb
    have hne := iterEq_end_false m _ j hlt
    have hat : m.atVal k
        = some (Except.ok ((m.derefKV ⟨m.hasher_ k % m.bucket_count, j⟩).2)) := by
      rw [atVal_eq m k _ hfind, hne]
      simp
    refine ⟨⟨?_, fun h => absurd hp h⟩, fun _ => ⟨_, hat, hmap⟩,
      fun h => absurd hp h, ?_, ?_, ?_⟩
    · intro h
      rw [hat] at h
      simp at h
    · simp [contains, hfind, hne, hp]
    · simp [count, contains, hfind, hne, hp]
    · intro cnt hc
      simp [count, contains, hfind, hne] at hc
      omega
  · have hfind := find_absent m k hb hp
    have heq := iterEq_end_end m
    have hat : m.atVal k = some (Except.error "Key not found") := by
      rw [atVal_eq m k _ hfind, heq]
      simp
    refine ⟨⟨fun _ => hp, fun _ => hat⟩, fun h => absurd h hp, fun _ => hfind,
      ?_, ?_, ?_⟩
    · simp [contains, hfind, heq, hp]
    · simp [count, contains, hfind, heq, hp]
    · intro cnt hc
      simp [count, contains, hfind, heq] at hc
      omega

theorem c7_at_lookup_witness :
    (xTab.WF ∧ 0 < xTab.bucket_count)
    ∧ ((xTab.atVal "x" = some (Except.error "Key not found") ↔ ¬ xTab.keyPresent "x")
      ∧ (xTab.keyPresent "x" → ∃ v, xTab.atVal "x" = some (Except.ok v) ∧ xTab.mapsTo "x" v)
      ∧ (¬ xTab.keyPresent "x" → xTab.find "x" = some xTab.endIter)
      ∧ xTab.contains "x" = some (decide (xTab.keyPresent "x"))
      ∧ xTab.count "x" = some (if xTab.keyPresent "x" then 1 else 0)
      ∧ (∀ cnt, xTab.count "x" = some cnt → cnt ≤ 1))
    ∧ (xTab.atVal "q" = some (Except.error "Key not found")
      ∧ xTab.contains "q" = some false ∧ xTab.count "q" = some 0) :=
  ⟨⟨by decide, by decide⟩,
   c7_at_lookup xTab "x" (by decide) (by decide),
   by decide, by decide, by decide⟩

theorem c4_rehash_exact_witness :
    ((1 : Nat) ≤ 3)
    ∧ (∃ m', overTab.rehash 3 = some m'
      ∧ m'.bucket_count = 3
      ∧ m'.size = overTab.size
      ∧ ((m'.buckets_.flatten).Perm overTab.buckets_.flatten)
      ∧ (∀ i, i < 3 → m'.buckets_.getD i []
          = overTab.buckets_.flatten.filter (fun kv => overTab.hasher_ kv.1 % 3 == i))) :=
  ⟨by decide, c4_rehash_exact overTab 3 (by decide)⟩

theorem replicate_WF (bc : Nat) (ml : ℚ) (h : String → Nat) :
    UnorderedMap.WF ⟨List.replicate bc [], 0, ml, h⟩ := by
  refine ⟨?_, ?_, ?_⟩
  · intro i hi e he
    rw [show (UnorderedMap.mk (List.replicate bc []) 0 ml h).buckets_
        = List.replicate bc [] from rfl, getD_replicate_nil] at he
    simp at he
  · rw [show (UnorderedMap.mk (List.replicate bc []) 0 ml h).buckets_
        = List.replicate bc [] from rfl, flatten_replicate_nil]
    simp
  · show 0 = _
    rw [sumSizes_eq_flatten_length,
      show (UnorderedMap.mk (List.replicate bc []) 0 ml h).buckets_
        = List.replicate bc [] from rfl, flatten_replicate_nil]
    rfl

/-- **C8 counterexample.** Copy construction does not always preserve
`bucket_count()`: `c8Src` is a reachable table (`max_load_factor = 1/8`,
8 buckets, 4 entries) whose copy re-inserts the entries one by one, and the
growth checks during that re-insertion double the copy's bucket array twice,
to 32 buckets. -/
theorem c8_copy_bucket_count_counterexample :
    c8Src.bucket_count = 8
    ∧ (c8Src.copyCtor).map (fun c => c.bucket_count) = some 32
    ∧ ¬ ((c8Src.copyCtor).map (fun c => c.bucket_count) = some c8Src.bucket_count) :=
  ⟨by decide, by decide, by decide⟩

/-- **C8 amended.** Copy construction of a well-formed table succeeds and
produces a table with the same hash policy object and max-load-factor,
the same `size()`, and exactly the same stored pairs (as a multiset),
independently owned (mutating the copy cannot affect the source — states are
values here); its bucket array *starts* at the source's length but the
re-insertion runs the growth check, so the copy's `bucket_count()` can grow
beyond the source's (see the counterexample). -/
theorem c8_copy_amended (m : UnorderedMap) (hwf : m.WF) :
    ∃ c, m.copyCtor = some c
      ∧ c.max_load_factor_ = m.max_load_factor_
      ∧ c.hasher_ = m.hasher_
      ∧ ((c.buckets_.flatten).Perm m.buckets_.flatten)
      ∧ c.size = m.size
      ∧ c.WF := by
  by_cases hb : 0 < m.bucket_count
  · have hinitwf := replicate_WF m.bucket_count m.max_load_factor_ m.hasher_
    have hbinit : 0 < (UnorderedMap.mk (List.replicate m.bucket_count [])
        0 m.max_load_factor_ m.hasher_).bucket_count := by
      show 0 < (List.replicate m.bucket_count ([] : List Entry)).length
      rw [List.length_replicate]
      exact hb
    have hfresh : ∀ e ∈ m.buckets_.flatten,
        ¬ (UnorderedMap.mk (List.replicate m.bucket_count [])
            0 m.max_load_factor_ m.hasher_).keyPresent e.1 := by
      intro e _ hpk
      rw [keyPresent, show (UnorderedMap.mk (List.replicate m.bucket_count [])
          0 m.max_load_factor_ m.hasher_).buckets_
          = List.replicate m.bucket_count [] from rfl, flatten_replicate_nil] at hpk
      simp at hpk
    obtain ⟨c, hall, hperm, hnum, hml, hh, hwfc, -⟩ :=
      insertAll_fresh_spec m.buckets_.flatten _ hbinit hinitwf hwf.2.1 hfresh
    refine ⟨c, ?_, by rw [hml], by rw [hh], ?_, ?_, hwfc⟩
    · rw [copyCtor]
      exact hall
    · refine hperm.trans ?_
      rw [show (UnorderedMap.mk (List.replicate m.bucket_count [])
          0 m.max_load_factor_ m.hasher_).buckets_
          = List.replicate m.bucket_count [] from rfl, flatten_replicate_nil,
        List.nil_append]
    · show c.num_elements_ = m.num_elements_
      rw [hnum]
      have hsz := hwf.2.2
      rw [sumSizes_eq_flatten_length] at hsz
      simpa using hsz.symm
  · have hb0 : m.bucket_count = 0 := by omega
    have hbs : m.buckets_ = [] := List.length_eq_zero.mp hb0
    have hnum0 : m.num_elements_ = 0 := by
      have hsz := hwf.2.2
      rw [sumSizes_eq_flatten_length, hbs] at hsz
      simpa using hsz
    refine ⟨⟨List.replicate m.bucket_count [], 0, m.max_load_factor_, m.hasher_⟩,
      ?_, rfl, rfl, ?_, ?_, replicate_WF m.bucket_count m.max_load_factor_ m.hasher_⟩
    · rw [copyCtor, hbs]
      show insertAll _ [] = _
      rw [insertAll, List.foldlM_nil]
      rfl
    · rw [show (UnorderedMap.mk (List.replicate m.bucket_count [])
          0 m.max_load_factor_ m.hasher_).buckets_
          = List.replicate m.bucket_count [] from rfl, flatten_replicate_nil, hbs]
      rfl
    · show (0 : Nat) = m.num_elements_
      rw [hnum0]

theorem c8_copy_amended_witness :
    c8Src.WF
    ∧ (∃ c, c8Src.copyCtor = some c
      ∧ c.max_load_factor_ = c8Src.max_load_factor_
      ∧ c.hasher_ = c8Src.hasher_
      ∧ ((c.buckets_.flatten).Perm c8Src.buckets_.flatten)
      ∧ c.size = c8Src.size
      ∧ c.WF)
    ∧ ((c8Src.copyCtor).bind (fun c => (c.erase "a").map (fun r =>
        r.1.contains "a" == some false && c8Src.contains "a" == some true)))
      = some true :=
  ⟨by decide, c8_copy_amended c8Src (by decide), by decide⟩

/-- **C9.** The claim says the degenerate zero-bucket case is guarded; the
code has no such guard.  `rehash(0)` on a table holding an entry reduces the
hash modulo zero (the `none` marks exactly that undefined `% 0`
computation); after a move the bucket array is empty and `bucket`/`find`
reduce modulo zero unconditionally; the sized constructor accepts a zero
bucket count without validation. -/
theorem c9_zero_bucket_unguarded :
    c9Tab.rehash 0 = none
    ∧ (moveCtor c9Tab).2.bucket "a" = none
    ∧ (moveCtor c9Tab).2.find "a" = none
    ∧ (mkEmpty 0 lenHash).bucket "a" = none :=
  ⟨rfl, rfl, rfl, rfl⟩

/-- **C10.** After move construction (or move assignment — the two leave the
source in the same state), the moved-from table has `num_elements_ = 0`
(`empty()` true, `size()` 0) but an *empty bucket array*
(`bucket_count() = 0`); the load-factor comparison with a zero bucket count
does not trigger a rehash (the float compare is NaN-false), so every
subsequent key-based operation — `bucket`, `find`, `insert`, `erase`,
`operator[]` — reaches the undefined `hash(k) % 0` (the `none` results). -/
theorem c10_moved_from (m : UnorderedMap) (k : String) (kv : Entry) :
    (moveCtor m).2.num_elements_ = 0
    ∧ (moveCtor m).2.empty = true
    ∧ (moveCtor m).2.size = 0
    ∧ (moveCtor m).2.bucket_count = 0
    ∧ (moveCtor m).2.load_factor_exceeds = false
    ∧ (moveCtor m).2.rehash_if_needed = some (moveCtor m).2
    ∧ (moveCtor m).2.bucket k = none
    ∧ (moveCtor m).2.find k = none
    ∧ (moveCtor m).2.insert kv = none
    ∧ (moveCtor m).2.erase k = none
    ∧ (moveCtor m).2.getOrInsert k = none
    ∧ (∀ t : UnorderedMap, moveAssign t m = moveCtor m) :=
  ⟨rfl, rfl, rfl, rfl, rfl, rfl, rfl, rfl, rfl, rfl, rfl, fun _ => rfl⟩


end UnorderedMap

end UM
